import Mathlib

/-!
# A sequential model of `ConcurrentHashMap<K, Order>` (src/model_a_turn4.cpp)

The class keeps two `std::map`s, `map_ : K → vector<Order>` and
`mutexes_ : K → mutex`.  Every public operation is modelled as a function from
the state before the call to the state after it, the returned value and the
lines the call prints.  A `std::map` is modelled by its lookup function; a
mutex carries no data between calls, so `mutexes_` is the set of keys that own
one.  `int` is a 32-bit two's complement integer: the only arithmetic of the
class, `lotSize += value.lotSize`, is reduced into that range.
-/

namespace ConcurrentMap

/-! ## Data model -/

/-- The value type of the map, `struct Order { int lotSize; int price; }`. -/
structure Order where
  lotSize : Int
  price : Int
deriving DecidableEq

/-- Smallest value of `int`. -/
def INT_MIN : Int := -2147483648

/-- Largest value of `int`. -/
def INT_MAX : Int := 2147483647

/-- Reduction of a mathematical integer into the range of `int`. -/
def wrapInt (x : Int) : Int := (x + 2147483648) % 4294967296 - 2147483648

/-- Addition of two `int`s, as `+=` performs it. -/
def addInt (a b : Int) : Int := wrapInt (a + b)

/-- The lines the operations write to `std::cout` and `std::cerr`. -/
inductive Msg (K : Type) where
  /-- Line `"Updated order for key: … with price: …"` (insert-merge and update). -/
  | updatedOrder (key : K) (price : Int)
  /-- Line `"Inserted new order for key: … with price: …"`. -/
  | insertedOrder (key : K) (price : Int)
  /-- Line `"Error: Key not found for update."`. -/
  | keyNotFoundUpdate
  /-- Line `"Error: Order with price not found for update."`. -/
  | orderNotFoundUpdate
  /-- Line `"Error: Key not found for removal."`. -/
  | keyNotFoundRemoval
  /-- Line `"Error: Key not found for getting lowest price."`. -/
  | keyNotFoundLowest
  /-- Line `"Error: Key not found for getting highest price."`. -/
  | keyNotFoundHighest
deriving DecidableEq

/-- The private members `map_` and `mutexes_` of the class. -/
structure ConcurrentHashMap (K : Type) where
  /-- Lookup in `std::map<K, std::vector<V>> map_`; `none` is `map_.end()`. -/
  map_ : K → Option (List Order)
  /-- Membership in `std::map<K, std::mutex> mutexes_`. -/
  mutexes_ : K → Bool

/-- What a call leaves behind: the new state, the returned value, the printed lines. -/
structure Outcome (K : Type) (α : Type) where
  state : ConcurrentHashMap K
  ret : α
  log : List (Msg K)

/-- A freshly constructed map: both `std::map`s are empty. -/
def empty {K : Type} : ConcurrentHashMap K :=
  { map_ := fun _ => none, mutexes_ := fun _ => false }

/-! ## Helpers from `<algorithm>` and `std::map` -/

/-- Position returned by `std::find_if(orders.begin(), orders.end(), pred)`:
the index of the first element satisfying `pred`, `none` for `orders.end()`. -/
def find_if (pred : Order → Bool) : List Order → Option Nat
  | [] => none
  | v :: vs => if pred v then some 0 else (find_if pred vs).map (· + 1)

/-- In-place write `*it = f (*it)` through the iterator at index `i`. -/
def modifyAt (f : Order → Order) : Nat → List Order → List Order
  | _, [] => []
  | 0, v :: vs => f v :: vs
  | i + 1, v :: vs => v :: modifyAt f i vs

/-- Result of `std::min_element` on the non-empty range `first :: rest`: the
first element `x` for which `comp x smallest` never holds afterwards. -/
def min_element (comp : Order → Order → Bool) (first : Order) (rest : List Order) : Order :=
  rest.foldl (fun smallest x => if comp x smallest then x else smallest) first

/-- Result of `std::max_element` on the non-empty range `first :: rest`. -/
def max_element (comp : Order → Order → Bool) (first : Order) (rest : List Order) : Order :=
  rest.foldl (fun largest x => if comp largest x then x else largest) first

/-- Assignment `m[key] = v` on a `std::map` given by its lookup function. -/
def assign {K V : Type} [DecidableEq K] (m : K → V) (key : K) (v : V) : K → V :=
  fun k => if k = key then v else m k

/-! ## Operations of the class -/

section Operations

variable {K : Type} [DecidableEq K]

/-- Private `get_mutex(key)`: installs a mutex for `key` when none is registered. -/
def get_mutex (s : ConcurrentHashMap K) (key : K) : ConcurrentHashMap K :=
  if s.mutexes_ key = false then
    { s with mutexes_ := assign s.mutexes_ key true }
  else s

/-- Method `insert(key, value)`: merge into the first record of the same price, or append. -/
def insert (s : ConcurrentHashMap K) (key : K) (value : Order) : Outcome K Unit :=
  let s1 := get_mutex s key
  -- `map_[key]` default-constructs an empty vector for a new key
  let orders := (s1.map_ key).getD []
  match find_if (fun v => v.price == value.price) orders with
  | some i =>
    { state := { s1 with map_ := assign s1.map_ key (some (modifyAt
        (fun v => { v with lotSize := addInt v.lotSize value.lotSize }) i orders)) }
      ret := ()
      log := [Msg.updatedOrder key value.price] }
  | none =>
    { state := { s1 with map_ := assign s1.map_ key (some (orders ++ [value])) }
      ret := ()
      log := [Msg.insertedOrder key value.price] }

/-- Method `update(key, price, newValue)`: overwrite the first record of that price. -/
def update (s : ConcurrentHashMap K) (key : K) (price : Int) (newValue : Order) :
    Outcome K Unit :=
  let s1 := get_mutex s key
  match s1.map_ key with
  | none => { state := s1, ret := (), log := [Msg.keyNotFoundUpdate] }
  | some orders =>
    match find_if (fun v => v.price == price) orders with
    | some i =>
      { state := { s1 with map_ := assign s1.map_ key (some (orders.set i newValue)) }
        ret := ()
        log := [Msg.updatedOrder key price] }
    | none => { state := s1, ret := (), log := [Msg.orderNotFoundUpdate] }

/-- Method `remove(key)`: erase the key from `map_`, then from `mutexes_`. -/
def remove (s : ConcurrentHashMap K) (key : K) : Outcome K Unit :=
  { state := { map_ := assign s.map_ key none, mutexes_ := assign s.mutexes_ key false }
    ret := ()
    -- `map_.erase(key) == 0` exactly when the key was not in `map_`
    log := if (s.map_ key).isNone then [Msg.keyNotFoundRemoval] else [] }

/-- Method `get_lowest_price(key)`. -/
def get_lowest_price (s : ConcurrentHashMap K) (key : K) : Outcome K Int :=
  let s1 := get_mutex s key
  match s1.map_ key with
  | none => { state := s1, ret := -1, log := [Msg.keyNotFoundLowest] }
  | some [] => { state := s1, ret := -1, log := [] }
  | some (first :: rest) =>
    { state := s1
      ret := (min_element (fun a b => decide (a.price < b.price)) first rest).price
      log := [] }

/-- Method `get_highest_price(key)`. -/
def get_highest_price (s : ConcurrentHashMap K) (key : K) : Outcome K Int :=
  let s1 := get_mutex s key
  match s1.map_ key with
  | none => { state := s1, ret := -1, log := [Msg.keyNotFoundHighest] }
  | some [] => { state := s1, ret := -1, log := [] }
  | some (first :: rest) =>
    { state := s1
      ret := (max_element (fun a b => decide (a.price < b.price)) first rest).price
      log := [] }

/-! ## Call sequences -/

/-- One call of a public method (the read-only `display` is left out). -/
inductive Op (K : Type) where
  | insert (key : K) (value : Order)
  | update (key : K) (price : Int) (newValue : Order)
  | remove (key : K)
  | get_lowest_price (key : K)
  | get_highest_price (key : K)

/-- State after one call. -/
def step (s : ConcurrentHashMap K) : Op K → ConcurrentHashMap K
  | Op.insert key value => (insert s key value).state
  | Op.update key price newValue => (update s key price newValue).state
  | Op.remove key => (remove s key).state
  | Op.get_lowest_price key => (get_lowest_price s key).state
  | Op.get_highest_price key => (get_highest_price s key).state

/-- State after a finite sequence of calls, executed in order. -/
def run (s : ConcurrentHashMap K) (ops : List (Op K)) : ConcurrentHashMap K :=
  ops.foldl step s

/-- Element `map_.at(key)[0]` read by the assertions of `test()`; `none` when
the key is not in `map_` or its vector is empty. -/
def firstRecord (s : ConcurrentHashMap K) (key : K) : Option Order :=
  (s.map_ key).bind (fun l => l[0]?)

/-- Method `test()`: the state after its six calls and, in order, the values
of the conditions of its five `assert` statements. -/
def test (s : ConcurrentHashMap String) : ConcurrentHashMap String × List Bool :=
  let s1 := (insert s "NESTLEIND" ⟨15, 150⟩).state
  let s2 := (insert s1 "HDFCBANK" ⟨20, 1400⟩).state
  let s3 := (insert s2 "RELIANCE" ⟨25, 2500⟩).state
  let s4 := (insert s3 "NESTLEIND" ⟨5, 150⟩).state
  let s5 := (update s4 "NESTLEIND" 150 ⟨18, 155⟩).state
  let s6 := (remove s5 "HDFCBANK").state
  (s6,
    [decide ((firstRecord s6 "NESTLEIND").map Order.lotSize = some 20),
     decide ((firstRecord s6 "NESTLEIND").map Order.price = some 150),
     decide ((firstRecord s6 "RELIANCE").map Order.lotSize = some 25),
     decide ((firstRecord s6 "RELIANCE").map Order.price = some 2500),
     decide (s6.map_ "HDFCBANK" = none)])

/-! ## Lock events

The order in which a method takes and releases `map_mutex_` and the per-key
mutexes, and erases entries, read off its body: a `std::unique_lock` or
`std::shared_lock` is taken where it is declared and released at the end of
its scope. -/

/-- One step of a method that concerns the mutexes or the two maps. -/
inductive LockEvent (K : Type) where
  /-- A lock on `map_mutex_` is taken. -/
  | lock_map_mutex
  /-- The lock on `map_mutex_` is released. -/
  | unlock_map_mutex
  /-- Statement `mutexes_[key] = std::mutex()` of `get_mutex`. -/
  | create_mutex (key : K)
  /-- A lock on `mutexes_[key]` is taken (`unique_lock` or `shared_lock`). -/
  | lock_key_mutex (key : K)
  /-- The lock on `mutexes_[key]` is released. -/
  | unlock_key_mutex (key : K)
  /-- The body of a per-key method reads or writes `map_` at `key`. -/
  | use_entry (key : K)
  /-- Statement `map_.erase(key)`. -/
  | erase_entry (key : K)
  /-- Statement `mutexes_.erase(key)`, which destroys the key's mutex. -/
  | erase_mutex (key : K)
deriving DecidableEq

/-- Events of `get_mutex(key)`: under `map_mutex_`, create the mutex if it is missing. -/
def get_mutex_events (s : ConcurrentHashMap K) (key : K) : List (LockEvent K) :=
  [LockEvent.lock_map_mutex] ++
    (if s.mutexes_ key = false then [LockEvent.create_mutex key] else []) ++
    [LockEvent.unlock_map_mutex]

/-- Events of `insert(key, value)`: `get_mutex`, then the body under the key's mutex. -/
def insert_events (s : ConcurrentHashMap K) (key : K) : List (LockEvent K) :=
  get_mutex_events s key ++
    [LockEvent.lock_key_mutex key, LockEvent.use_entry key, LockEvent.unlock_key_mutex key]

/-- Events of `update(key, price, newValue)`. -/
def update_events (s : ConcurrentHashMap K) (key : K) : List (LockEvent K) :=
  get_mutex_events s key ++
    [LockEvent.lock_key_mutex key, LockEvent.use_entry key, LockEvent.unlock_key_mutex key]

/-- Events of `get_lowest_price(key)`. -/
def get_lowest_price_events (s : ConcurrentHashMap K) (key : K) : List (LockEvent K) :=
  get_mutex_events s key ++
    [LockEvent.lock_key_mutex key, LockEvent.use_entry key, LockEvent.unlock_key_mutex key]

/-- Events of `get_highest_price(key)`. -/
def get_highest_price_events (s : ConcurrentHashMap K) (key : K) : List (LockEvent K) :=
  get_mutex_events s key ++
    [LockEvent.lock_key_mutex key, LockEvent.use_entry key, LockEvent.unlock_key_mutex key]

/-- Events of `remove(key)`: under `map_mutex_`, erase the entry, then the mutex. -/
def remove_events (key : K) : List (LockEvent K) :=
  [LockEvent.lock_map_mutex, LockEvent.erase_entry key, LockEvent.erase_mutex key,
    LockEvent.unlock_map_mutex]

end Operations

/-! ## Predicates used by the statements -/

section Predicates

variable {K : Type} [DecidableEq K]

/-- The key is in `map_` and its vector holds a record of price `p`. -/
def holdsPrice (s : ConcurrentHashMap K) (key : K) (p : Int) : Bool :=
  match s.map_ key with
  | none => false
  | some l => l.any (fun o => o.price == p)

/-- No two records of the vector have the same price. -/
def distinctPrices (l : List Order) : Prop := (l.map Order.price).Nodup

instance (l : List Order) : Decidable (distinctPrices l) := by
  unfold distinctPrices; infer_instance

/-- Every vector of the store has pairwise distinct prices. -/
def distinctPricesAll (s : ConcurrentHashMap K) : Prop :=
  ∀ key l, s.map_ key = some l → distinctPrices l

/-- Every key of `map_` owns a mutex in `mutexes_`. -/
def locksCoverKeys (s : ConcurrentHashMap K) : Prop :=
  ∀ k, (s.map_ k).isSome = true → s.mutexes_ k = true

/-- Adding the quantities `qs` one after the other to the running total `acc`
never leaves the range of `int`. -/
def noOverflow : Int → List Int → Bool
  | _, [] => true
  | acc, q :: qs => decide (INT_MIN ≤ acc + q ∧ acc + q ≤ INT_MAX) && noOverflow (acc + q) qs

/-- The call is an `insert` or an `update`. -/
def Op.isInsertOrUpdate : Op K → Bool
  | Op.insert _ _ => true
  | Op.update _ _ _ => true
  | _ => false

/-- The call is an `insert`, or an `update` whose new record keeps the price it
is looked up by or brings a price that no record of the key has yet. -/
def Op.keepsLevels (s : ConcurrentHashMap K) : Op K → Bool
  | Op.insert _ _ => true
  | Op.update key price newValue =>
    newValue.price == price || !holdsPrice s key newValue.price
  | _ => false

/-- Every call of the sequence, started in `s`, satisfies `Op.keepsLevels` in
the state it is made in. -/
def keepsLevelsFrom (s : ConcurrentHashMap K) : List (Op K) → Bool
  | [] => true
  | o :: os => Op.keepsLevels s o && keepsLevelsFrom (step s o) os

/-- A mutex is registered for a key exactly when the key is in `map_`. -/
def locksMatchKeys (s : ConcurrentHashMap K) : Prop :=
  ∀ k, s.mutexes_ k = true ↔ (s.map_ k).isSome = true

/-- The call is an `insert` or a `remove`, or an `update` or a price query on
a key that is in `map_`. -/
def Op.onPresentKey (s : ConcurrentHashMap K) : Op K → Bool
  | Op.insert _ _ => true
  | Op.remove _ => true
  | Op.update key _ _ => (s.map_ key).isSome
  | Op.get_lowest_price key => (s.map_ key).isSome
  | Op.get_highest_price key => (s.map_ key).isSome

/-- Every call of the sequence, started in `s`, satisfies `Op.onPresentKey`
in the state it is made in. -/
def onPresentKeysFrom (s : ConcurrentHashMap K) : List (Op K) → Bool
  | [] => true
  | o :: os => Op.onPresentKey s o && onPresentKeysFrom (step s o) os

/-- No key of `map_` is mapped to an empty vector. -/
def nonEmptyLists (s : ConcurrentHashMap K) : Prop :=
  ∀ k l, s.map_ k = some l → l ≠ []

/-- Requirement of the specification on a method's events: whenever the mutex
of `key` is erased, the method holds a lock on that mutex, taken earlier and
not yet released (`held` says whether it holds one at the start). -/
def locksKeyBeforeErase (key : K) : Bool → List (LockEvent K) → Bool
  | _, [] => true
  | held, LockEvent.lock_key_mutex k :: es =>
    locksKeyBeforeErase key (held || decide (k = key)) es
  | held, LockEvent.unlock_key_mutex k :: es =>
    locksKeyBeforeErase key (held && !decide (k = key)) es
  | held, LockEvent.erase_mutex k :: es =>
    (!decide (k = key) || held) && locksKeyBeforeErase key held es
  | held, _ :: es => locksKeyBeforeErase key held es

end Predicates

/-! ## Lemmas on the list helpers -/

theorem find_if_eq_none {pred : Order → Bool} {l : List Order} :
    find_if pred l = none ↔ ∀ v ∈ l, pred v = false := by
  induction l with
  | nil => simp [find_if]
  | cons v vs ih =>
    by_cases hv : pred v = true
    · simp [find_if, hv]
    · simp [find_if, hv, ih]

theorem find_if_append_last {pred : Order → Bool} {l : List Order} {a : Order}
    (hl : ∀ v ∈ l, pred v = false) (ha : pred a = true) :
    find_if pred (l ++ [a]) = some l.length := by
  induction l with
  | nil => simp [find_if, ha]
  | cons v vs ih =>
    have hv : pred v = false := hl v (List.mem_cons_self _ _)
    have hvs : ∀ w ∈ vs, pred w = false := fun w hw => hl w (List.mem_cons_of_mem _ hw)
    simp [find_if, hv, ih hvs]

theorem modifyAt_append_last (f : Order → Order) (l : List Order) (a : Order) :
    modifyAt f l.length (l ++ [a]) = l ++ [f a] := by
  induction l with
  | nil => simp [modifyAt]
  | cons v vs ih => simp [modifyAt, ih]

/-- A hit of `find_if` is a valid position, its element satisfies the
predicate and no earlier element does. -/
theorem find_if_eq_some {pred : Order → Bool} {l : List Order} {i : Nat}
    (h : find_if pred l = some i) :
    (∃ o, l[i]? = some o ∧ pred o = true) ∧
      ∀ j, j < i → ∀ o, l[j]? = some o → pred o = false := by
  induction l generalizing i with
  | nil => simp [find_if] at h
  | cons v vs ih =>
    by_cases hv : pred v = true
    · simp [find_if, hv] at h
      subst h
      exact ⟨⟨v, by simp, hv⟩, fun j hj => absurd hj (Nat.not_lt_zero j)⟩
    · simp only [find_if, hv] at h
      cases hf : find_if pred vs with
      | none => simp [hf] at h
      | some k =>
        simp [hf] at h
        subst h
        obtain ⟨⟨o, ho, hpo⟩, hlt⟩ := ih hf
        refine ⟨⟨o, by simpa using ho, hpo⟩, ?_⟩
        intro j hj o2 ho2
        cases j with
        | zero =>
          simp at ho2
          subst ho2
          simpa using hv
        | succ j =>
          simp at ho2
          exact hlt j (by omega) o2 ho2

theorem find_if_isSome {pred : Order → Bool} {l : List Order}
    (h : ∃ v ∈ l, pred v = true) : ∃ i, find_if pred l = some i := by
  cases hf : find_if pred l with
  | some i => exact ⟨i, rfl⟩
  | none =>
    obtain ⟨v, hv, hp⟩ := h
    have := find_if_eq_none.mp hf v hv
    simp [this] at hp

theorem filter_append_last {p : Int} {l : List Order} {a : Order}
    (hl : ∀ o ∈ l, (o.price == p) = false) (ha : (a.price == p) = true) :
    (l ++ [a]).filter (fun o => o.price == p) = [a] := by
  rw [List.filter_append, List.filter_eq_nil_iff.mpr (fun o ho => by simp [hl o ho])]
  simp [List.filter, ha]

theorem wrapInt_of_inRange {x : Int} (h : INT_MIN ≤ x ∧ x ≤ INT_MAX) : wrapInt x = x := by
  unfold INT_MIN INT_MAX at h
  unfold wrapInt
  omega

theorem foldl_addInt_of_noOverflow (acc : Int) (qs : List Int)
    (h : noOverflow acc qs = true) : qs.foldl addInt acc = acc + qs.sum := by
  induction qs generalizing acc with
  | nil => simp
  | cons q qs ih =>
    simp only [noOverflow, Bool.and_eq_true, decide_eq_true_eq] at h
    have hw : addInt acc q = acc + q := wrapInt_of_inRange h.1
    simp only [List.foldl_cons, List.sum_cons, hw, ih (acc + q) h.2]
    omega

theorem modifyAt_map_price (f : Order → Order) (hf : ∀ v, (f v).price = v.price)
    (i : Nat) (l : List Order) :
    (modifyAt f i l).map Order.price = l.map Order.price := by
  induction l generalizing i with
  | nil => simp [modifyAt]
  | cons v vs ih =>
    cases i with
    | zero => simp [modifyAt, hf]
    | succ i => simp [modifyAt, ih]

theorem set_of_getElem? {α : Type} {l : List α} {i : Nat} {a : α} (h : l[i]? = some a) :
    l.set i a = l := by
  induction l generalizing i with
  | nil => simp
  | cons v vs ih =>
    cases i with
    | zero =>
      simp at h
      simp [h]
    | succ i =>
      simp at h
      simp [ih h]

theorem distinctPrices_append (l : List Order) (v : Order) (hd : distinctPrices l)
    (hv : ∀ o ∈ l, (o.price == v.price) = false) : distinctPrices (l ++ [v]) := by
  unfold distinctPrices at *
  rw [List.map_append, List.nodup_append]
  refine ⟨hd, by simp, ?_⟩
  intro a ha hb
  simp only [List.map_cons, List.map_nil, List.mem_singleton] at hb
  obtain ⟨o, ho, rfl⟩ := List.mem_map.mp ha
  have := hv o ho
  simp [hb] at this

theorem distinctPrices_set (l : List Order) (i : Nat) (p : Int) (nv : Order)
    (hf : find_if (fun v => v.price == p) l = some i) (hd : distinctPrices l)
    (hg : nv.price = p ∨ ∀ o ∈ l, (o.price == nv.price) = false) :
    distinctPrices (l.set i nv) := by
  unfold distinctPrices at *
  rw [List.map_set]
  rcases hg with hg | hg
  · obtain ⟨⟨o, ho, hpo⟩, _⟩ := find_if_eq_some hf
    have hi : (l.map Order.price)[i]? = some nv.price := by
      simp only [List.getElem?_map, ho, Option.map_some']
      simp only [beq_iff_eq] at hpo
      rw [hpo, hg]
    rw [set_of_getElem? hi]
    exact hd
  · apply List.Nodup.set hd
    intro hmem
    obtain ⟨o, ho, hop⟩ := List.mem_map.mp hmem
    have := hg o ho
    simp [hop] at this

theorem min_element_cons (comp : Order → Order → Bool) (first x : Order)
    (rest : List Order) :
    min_element comp first (x :: rest) =
      min_element comp (if comp x first then x else first) rest := by
  simp [min_element]

theorem max_element_cons (comp : Order → Order → Bool) (first x : Order)
    (rest : List Order) :
    max_element comp first (x :: rest) =
      max_element comp (if comp first x then x else first) rest := by
  simp [max_element]

/-- The element `std::min_element` returns under the price comparator belongs
to the range and no element of the range has a smaller price. -/
theorem min_element_spec (rest : List Order) : ∀ first : Order,
    min_element (fun a b => decide (a.price < b.price)) first rest ∈ first :: rest ∧
      ∀ o ∈ first :: rest,
        (min_element (fun a b => decide (a.price < b.price)) first rest).price ≤ o.price := by
  induction rest with
  | nil => intro first; simp [min_element]
  | cons x rest ih =>
    intro first
    rw [min_element_cons]
    by_cases hx : x.price < first.price
    · simp only [hx, decide_True, if_true]
      obtain ⟨hm, hle⟩ := ih x
      refine ⟨?_, ?_⟩
      · exact List.mem_cons_of_mem _ hm
      · intro o ho
        rcases List.mem_cons.mp ho with rfl | ho
        · exact le_trans (hle x (List.mem_cons_self _ _)) (le_of_lt hx)
        · exact hle o ho
    · simp only [hx, decide_False, Bool.false_eq_true, if_false]
      obtain ⟨hm, hle⟩ := ih first
      refine ⟨?_, ?_⟩
      · rcases List.mem_cons.mp hm with h | h
        · rw [h]; exact List.mem_cons_self _ _
        · exact List.mem_cons_of_mem _ (List.mem_cons_of_mem _ h)
      · intro o ho
        rcases List.mem_cons.mp ho with rfl | ho
        · exact hle _ (List.mem_cons_self _ _)
        · rcases List.mem_cons.mp ho with rfl | ho
          · exact le_trans (hle first (List.mem_cons_self _ _)) (not_lt.mp hx)
          · exact hle o (List.mem_cons_of_mem _ ho)

/-- The element `std::max_element` returns under the price comparator belongs
to the range and no element of the range has a larger price. -/
theorem max_element_spec (rest : List Order) : ∀ first : Order,
    max_element (fun a b => decide (a.price < b.price)) first rest ∈ first :: rest ∧
      ∀ o ∈ first :: rest,
        o.price ≤ (max_element (fun a b => decide (a.price < b.price)) first rest).price := by
  induction rest with
  | nil => intro first; simp [max_element]
  | cons x rest ih =>
    intro first
    rw [max_element_cons]
    by_cases hx : first.price < x.price
    · simp only [hx, decide_True, if_true]
      obtain ⟨hm, hle⟩ := ih x
      refine ⟨?_, ?_⟩
      · exact List.mem_cons_of_mem _ hm
      · intro o ho
        rcases List.mem_cons.mp ho with rfl | ho
        · exact le_trans (le_of_lt hx) (hle x (List.mem_cons_self _ _))
        · exact hle o ho
    · simp only [hx, decide_False, Bool.false_eq_true, if_false]
      obtain ⟨hm, hle⟩ := ih first
      refine ⟨?_, ?_⟩
      · rcases List.mem_cons.mp hm with h | h
        · rw [h]; exact List.mem_cons_self _ _
        · exact List.mem_cons_of_mem _ (List.mem_cons_of_mem _ h)
      · intro o ho
        rcases List.mem_cons.mp ho with rfl | ho
        · exact hle _ (List.mem_cons_self _ _)
        · rcases List.mem_cons.mp ho with rfl | ho
          · exact le_trans (not_lt.mp hx) (hle first (List.mem_cons_self _ _))
          · exact hle o (List.mem_cons_of_mem _ ho)

theorem modifyAt_length (f : Order → Order) (i : Nat) (l : List Order) :
    (modifyAt f i l).length = l.length := by
  induction l generalizing i with
  | nil => simp [modifyAt]
  | cons v vs ih =>
    cases i with
    | zero => simp [modifyAt]
    | succ i => simp [modifyAt, ih]

theorem modifyAt_getElem?_self (f : Order → Order) (i : Nat) (l : List Order) (o : Order)
    (h : l[i]? = some o) : (modifyAt f i l)[i]? = some (f o) := by
  induction l generalizing i with
  | nil => simp at h
  | cons v vs ih =>
    cases i with
    | zero =>
      simp at h
      simp [modifyAt, h]
    | succ i =>
      simp at h
      simpa [modifyAt] using ih i h

theorem modifyAt_getElem?_ne (f : Order → Order) (i j : Nat) (l : List Order)
    (h : j ≠ i) : (modifyAt f i l)[j]? = l[j]? := by
  induction l generalizing i j with
  | nil => simp [modifyAt]
  | cons v vs ih =>
    cases i with
    | zero =>
      cases j with
      | zero => exact absurd rfl h
      | succ j => simp [modifyAt]
    | succ i =>
      cases j with
      | zero => simp [modifyAt]
      | succ j =>
        have hji : j ≠ i := fun e => h (by rw [e])
        simpa [modifyAt] using ih i j hji

/-! ## Lemmas on the operations -/

section OperationLemmas

variable {K : Type} [DecidableEq K]

theorem assign_same {V : Type} (m : K → V) (key : K) (v : V) : assign m key v key = v := by
  simp [assign]

theorem assign_other {V : Type} (m : K → V) {key k : K} (v : V) (h : k ≠ key) :
    assign m key v k = m k := by
  simp [assign, h]

theorem get_mutex_map_ (s : ConcurrentHashMap K) (key : K) :
    (get_mutex s key).map_ = s.map_ := by
  unfold get_mutex
  split <;> rfl

theorem get_mutex_mutexes_ (s : ConcurrentHashMap K) (key : K) :
    (get_mutex s key).mutexes_ = assign s.mutexes_ key true := by
  unfold get_mutex
  split
  · rfl
  · rename_i h
    funext k
    by_cases hk : k = key
    · subst hk
      simpa [assign] using h
    · simp [assign, hk]

theorem get_mutex_of_locked (s : ConcurrentHashMap K) (key : K)
    (h : s.mutexes_ key = true) : get_mutex s key = s := by
  simp [get_mutex, h]

theorem insert_map_of_none (s : ConcurrentHashMap K) (key : K) (value : Order)
    (h : find_if (fun v => v.price == value.price) ((s.map_ key).getD []) = none) :
    (insert s key value).state.map_ =
      assign s.map_ key (some ((s.map_ key).getD [] ++ [value])) := by
  simp only [insert, get_mutex_map_, h]

theorem insert_map_of_some (s : ConcurrentHashMap K) (key : K) (value : Order) (i : Nat)
    (h : find_if (fun v => v.price == value.price) ((s.map_ key).getD []) = some i) :
    (insert s key value).state.map_ =
      assign s.map_ key (some (modifyAt
        (fun v => { v with lotSize := addInt v.lotSize value.lotSize }) i
        ((s.map_ key).getD []))) := by
  simp only [insert, get_mutex_map_, h]

theorem update_map_of_some (s : ConcurrentHashMap K) (key : K) (price : Int)
    (newValue : Order) (orders : List Order) (i : Nat) (hk : s.map_ key = some orders)
    (h : find_if (fun v => v.price == price) orders = some i) :
    (update s key price newValue).state.map_ =
      assign s.map_ key (some (orders.set i newValue)) := by
  simp only [update, get_mutex_map_, hk, h]

theorem update_of_absent (s : ConcurrentHashMap K) (key : K) (price : Int)
    (newValue : Order) (hk : s.map_ key = none) :
    update s key price newValue =
      { state := get_mutex s key, ret := (), log := [Msg.keyNotFoundUpdate] } := by
  simp only [update, get_mutex_map_, hk]

theorem update_of_no_price (s : ConcurrentHashMap K) (key : K) (price : Int)
    (newValue : Order) (orders : List Order) (hk : s.map_ key = some orders)
    (h : find_if (fun v => v.price == price) orders = none) :
    update s key price newValue =
      { state := get_mutex s key, ret := (), log := [Msg.orderNotFoundUpdate] } := by
  simp only [update, get_mutex_map_, hk, h]

/-- Repeated inserts at a price whose only record is the last one of the
vector keep accumulating into that record. -/
theorem run_inserts_accumulate (key : K) (p : Int) (l0 : List Order)
    (h0 : ∀ o ∈ l0, (o.price == p) = false) (qs : List Int) :
    ∀ (s : ConcurrentHashMap K) (acc : Int), s.map_ key = some (l0 ++ [⟨acc, p⟩]) →
      (run s (qs.map (fun q => Op.insert key ⟨q, p⟩))).map_ key =
        some (l0 ++ [⟨qs.foldl addInt acc, p⟩]) := by
  induction qs with
  | nil => intro s acc hs; simpa [run] using hs
  | cons q qs ih =>
    intro s acc hs
    have hf : find_if (fun v => v.price == (⟨q, p⟩ : Order).price)
        ((s.map_ key).getD []) = some l0.length := by
      rw [hs]
      exact find_if_append_last h0 (by simp)
    have hm := insert_map_of_some s key ⟨q, p⟩ l0.length hf
    rw [hs] at hm
    simp only [Option.getD_some, modifyAt_append_last] at hm
    have hstep : (step s (Op.insert key ⟨q, p⟩)).map_ key =
        some (l0 ++ [⟨addInt acc q, p⟩]) := by
      simp only [step, hm, assign_same]
    have := ih (step s (Op.insert key ⟨q, p⟩)) (addInt acc q) hstep
    simpa [run] using this

omit [DecidableEq K] in
theorem holdsPrice_false_iff (s : ConcurrentHashMap K) (key : K) (p : Int) :
    holdsPrice s key p = false ↔ ∀ o ∈ (s.map_ key).getD [], (o.price == p) = false := by
  unfold holdsPrice
  cases h : s.map_ key with
  | none => simp
  | some l => simp

/-! ## Merge on insert -/

/-- Claim C1, refuted as stated: inserting the quantities 2147483647 and 1 at
price 150 under the new key "A" leaves one record of price 150 whose quantity
is -2147483648, not the sum 2147483648 of the inserted quantities. -/
theorem insert_same_price_sum_overflows :
    holdsPrice (empty : ConcurrentHashMap String) "A" 150 = false ∧
      (run (empty : ConcurrentHashMap String)
        (([2147483647, 1] : List Int).map (fun q => Op.insert "A" ⟨q, 150⟩))).map_ "A"
        = some [⟨-2147483648, 150⟩] ∧
      ([2147483647, 1] : List Int).sum = 2147483648 ∧
      (-2147483648 : Int) ≠ ([2147483647, 1] : List Int).sum := by
  decide

/-- Claim C1, amended: when the key is absent or its vector holds no record of
price `p`, inserting the quantities `q1, …, qk` at price `p` under that key,
in order, leaves exactly one record of price `p` in the key's vector; its
quantity is `q1 + … + qk` computed with the 32-bit `int` addition of the code,
and it is the sum of the quantities whenever every running total stays in the
range of `int`. -/
theorem insert_same_price_merges (s : ConcurrentHashMap K) (key : K) (p q1 : Int)
    (qs : List Int) (h : holdsPrice s key p = false) :
    ∃ l total, (run s ((q1 :: qs).map (fun q => Op.insert key ⟨q, p⟩))).map_ key = some l ∧
      l.filter (fun o => o.price == p) = [⟨total, p⟩] ∧
      total = qs.foldl addInt q1 ∧
      (noOverflow q1 qs = true → total = (q1 :: qs).sum) := by
  have h0 := (holdsPrice_false_iff s key p).mp h
  have hf : find_if (fun v => v.price == (⟨q1, p⟩ : Order).price)
      ((s.map_ key).getD []) = none := find_if_eq_none.mpr h0
  have hstep : (step s (Op.insert key ⟨q1, p⟩)).map_ key =
      some ((s.map_ key).getD [] ++ [⟨q1, p⟩]) := by
    simp only [step, insert_map_of_none s key ⟨q1, p⟩ hf, assign_same]
  have hrun := run_inserts_accumulate key p _ h0 qs _ q1 hstep
  refine ⟨_, qs.foldl addInt q1, ?_, filter_append_last h0 (by simp), rfl, ?_⟩
  · simpa [run] using hrun
  · intro hno
    rw [foldl_addInt_of_noOverflow q1 qs hno, List.sum_cons]

/-- The scenario of the built-in test, on a store whose key already holds
another price level: 15 and 5 at price 150 merge into one record of 20. -/
theorem insert_same_price_merges_witness :
    holdsPrice (insert (empty : ConcurrentHashMap String) "NESTLEIND" ⟨7, 100⟩).state
        "NESTLEIND" 150 = false ∧
      noOverflow 15 [5] = true ∧
      ∃ l total, (run (insert (empty : ConcurrentHashMap String) "NESTLEIND" ⟨7, 100⟩).state
          (([15, 5] : List Int).map (fun q => Op.insert "NESTLEIND" ⟨q, 150⟩))).map_
            "NESTLEIND" = some l ∧
        l.filter (fun o => o.price == 150) = [⟨total, 150⟩] ∧
        total = ([5] : List Int).foldl addInt 15 ∧
        (noOverflow 15 [5] = true → total = ([15, 5] : List Int).sum) :=
  ⟨by decide, by decide, insert_same_price_merges _ "NESTLEIND" 150 15 [5] (by decide)⟩

/-! ## Distinct prices -/

theorem insert_preserves_distinct (s : ConcurrentHashMap K) (key : K) (value : Order)
    (h : distinctPricesAll s) : distinctPricesAll (insert s key value).state := by
  have hd0 : distinctPrices ((s.map_ key).getD []) := by
    cases hk : s.map_ key with
    | none => simp [distinctPrices]
    | some l => simpa using h key l hk
  intro k l hl
  cases hf : find_if (fun v => v.price == value.price) ((s.map_ key).getD []) with
  | none =>
    rw [insert_map_of_none s key value hf] at hl
    by_cases hk : k = key
    · subst hk
      rw [assign_same] at hl
      cases hl
      exact distinctPrices_append _ _ hd0 (find_if_eq_none.mp hf)
    · rw [assign_other _ _ hk] at hl
      exact h k l hl
  | some i =>
    rw [insert_map_of_some s key value i hf] at hl
    by_cases hk : k = key
    · subst hk
      rw [assign_same] at hl
      cases hl
      unfold distinctPrices
      rw [modifyAt_map_price (fun v => { v with lotSize := addInt v.lotSize value.lotSize })
        (fun _ => rfl)]
      exact hd0
    · rw [assign_other _ _ hk] at hl
      exact h k l hl

theorem update_preserves_distinct (s : ConcurrentHashMap K) (key : K) (price : Int)
    (newValue : Order) (h : distinctPricesAll s)
    (hg : (newValue.price == price || !holdsPrice s key newValue.price) = true) :
    distinctPricesAll (update s key price newValue).state := by
  intro k l hl
  cases hk : s.map_ key with
  | none =>
    rw [update_of_absent s key price newValue hk] at hl
    simp only [get_mutex_map_] at hl
    exact h k l hl
  | some orders =>
    cases hf : find_if (fun v => v.price == price) orders with
    | none =>
      rw [update_of_no_price s key price newValue orders hk hf] at hl
      simp only [get_mutex_map_] at hl
      exact h k l hl
    | some i =>
      rw [update_map_of_some s key price newValue orders i hk hf] at hl
      by_cases hkk : k = key
      · subst hkk
        rw [assign_same] at hl
        cases hl
        apply distinctPrices_set orders i price newValue hf (h k orders hk)
        simp only [Bool.or_eq_true, beq_iff_eq, Bool.not_eq_true'] at hg
        rcases hg with hg | hg
        · exact Or.inl hg
        · right
          have := (holdsPrice_false_iff s k newValue.price).mp hg
          simpa [hk] using this
      · rw [assign_other _ _ hkk] at hl
        exact h k l hl

theorem run_preserves_distinct (ops : List (Op K)) :
    ∀ s : ConcurrentHashMap K, distinctPricesAll s → keepsLevelsFrom s ops = true →
      distinctPricesAll (run s ops) := by
  induction ops with
  | nil => intro s hs _; simpa [run] using hs
  | cons o os ih =>
    intro s hs hk
    simp only [keepsLevelsFrom, Bool.and_eq_true] at hk
    have hstep : distinctPricesAll (step s o) := by
      cases o with
      | insert key value => exact insert_preserves_distinct s key value hs
      | update key price newValue =>
        exact update_preserves_distinct s key price newValue hs (by simpa [Op.keepsLevels] using hk.1)
      | remove key => simp [Op.keepsLevels] at hk
      | get_lowest_price key => simp [Op.keepsLevels] at hk
      | get_highest_price key => simp [Op.keepsLevels] at hk
    simpa [run] using ih (step s o) hstep hk.2

/-- Claim C2, refuted as stated: two inserts at prices 100 and 200 followed by
an update that rewrites the record of price 100 into one of price 200 leave
two records of price 200 under the key. -/
theorem update_breaks_distinct_prices :
    List.all [Op.insert "A" ⟨1, 100⟩, Op.insert "A" ⟨1, 200⟩, Op.update "A" 100 ⟨5, 200⟩]
        Op.isInsertOrUpdate = true ∧
      (run (empty : ConcurrentHashMap String)
        [Op.insert "A" ⟨1, 100⟩, Op.insert "A" ⟨1, 200⟩, Op.update "A" 100 ⟨5, 200⟩]).map_ "A"
        = some [⟨5, 200⟩, ⟨1, 200⟩] ∧
      ¬ distinctPrices [⟨5, 200⟩, ⟨1, 200⟩] := by
  decide

/-- Claim C2, amended: after any finite sequence, started on the empty store,
of inserts and of updates whose new record keeps the price it is looked up by
or brings a price that no record of the key has at the time of the call, no
two records of any key's vector have the same price. -/
theorem distinct_prices_of_keepsLevels (ops : List (Op K))
    (h : keepsLevelsFrom (empty : ConcurrentHashMap K) ops = true) (key : K)
    (l : List Order) (hl : (run (empty : ConcurrentHashMap K) ops).map_ key = some l) :
    distinctPrices l :=
  run_preserves_distinct ops empty (fun _ _ hk => by simp [empty] at hk) h key l hl

/-- A sequence with a merge, a re-pricing update and a quantity update. -/
theorem distinct_prices_of_keepsLevels_witness :
    keepsLevelsFrom (empty : ConcurrentHashMap String)
        [Op.insert "A" ⟨1, 100⟩, Op.insert "A" ⟨1, 200⟩, Op.insert "A" ⟨2, 100⟩,
          Op.update "A" 100 ⟨5, 300⟩, Op.update "A" 200 ⟨9, 200⟩] = true ∧
      (run (empty : ConcurrentHashMap String)
        [Op.insert "A" ⟨1, 100⟩, Op.insert "A" ⟨1, 200⟩, Op.insert "A" ⟨2, 100⟩,
          Op.update "A" 100 ⟨5, 300⟩, Op.update "A" 200 ⟨9, 200⟩]).map_ "A"
        = some [⟨5, 300⟩, ⟨9, 200⟩] ∧
      distinctPrices [⟨5, 300⟩, ⟨9, 200⟩] :=
  ⟨by decide, by decide,
    distinct_prices_of_keepsLevels
      [Op.insert "A" ⟨1, 100⟩, Op.insert "A" ⟨1, 200⟩, Op.insert "A" ⟨2, 100⟩,
        Op.update "A" 100 ⟨5, 300⟩, Op.update "A" 200 ⟨9, 200⟩]
      (by decide) "A" [⟨5, 300⟩, ⟨9, 200⟩] (by decide)⟩

/-! ## Effect of the operations on `mutexes_` and on other keys -/

theorem assign_eq_self {V : Type} (m : K → V) (key : K) (v : V) (h : m key = v) :
    assign m key v = m := by
  funext k
  by_cases hk : k = key
  · subst hk
    simp [assign, h]
  · simp [assign, hk]

theorem insert_mutexes_ (s : ConcurrentHashMap K) (key : K) (value : Order) :
    (insert s key value).state.mutexes_ = assign s.mutexes_ key true := by
  simp only [insert]
  split <;> exact get_mutex_mutexes_ s key

theorem insert_map_other (s : ConcurrentHashMap K) (key : K) (value : Order) {k : K}
    (hk : k ≠ key) : (insert s key value).state.map_ k = s.map_ k := by
  cases hf : find_if (fun v => v.price == value.price) ((s.map_ key).getD []) with
  | none => rw [insert_map_of_none s key value hf, assign_other _ _ hk]
  | some i => rw [insert_map_of_some s key value i hf, assign_other _ _ hk]

theorem update_mutexes_ (s : ConcurrentHashMap K) (key : K) (price : Int) (newValue : Order) :
    (update s key price newValue).state.mutexes_ = assign s.mutexes_ key true := by
  simp only [update]
  split
  · exact get_mutex_mutexes_ s key
  · split <;> exact get_mutex_mutexes_ s key

theorem update_map_isSome (s : ConcurrentHashMap K) (key : K) (price : Int)
    (newValue : Order) (k : K) :
    ((update s key price newValue).state.map_ k).isSome = (s.map_ k).isSome := by
  cases hk : s.map_ key with
  | none => simp [update_of_absent s key price newValue hk, get_mutex_map_]
  | some orders =>
    cases hf : find_if (fun v => v.price == price) orders with
    | none => simp [update_of_no_price s key price newValue orders hk hf, get_mutex_map_]
    | some i =>
      rw [update_map_of_some s key price newValue orders i hk hf]
      by_cases hkk : k = key
      · subst hkk
        simp [assign_same, hk]
      · rw [assign_other _ _ hkk]

theorem get_lowest_price_state (s : ConcurrentHashMap K) (key : K) :
    (get_lowest_price s key).state = get_mutex s key := by
  simp only [get_lowest_price]
  split <;> rfl

theorem get_highest_price_state (s : ConcurrentHashMap K) (key : K) :
    (get_highest_price s key).state = get_mutex s key := by
  simp only [get_highest_price]
  split <;> rfl

theorem get_mutex_covers (s : ConcurrentHashMap K) (key : K) (h : locksCoverKeys s) :
    locksCoverKeys (get_mutex s key) := by
  intro k hk
  rw [get_mutex_map_] at hk
  rw [get_mutex_mutexes_]
  by_cases hkk : k = key
  · subst hkk
    exact assign_same _ _ _
  · rw [assign_other _ _ hkk]
    exact h k hk

theorem step_covers (s : ConcurrentHashMap K) (o : Op K) (h : locksCoverKeys s) :
    locksCoverKeys (step s o) := by
  cases o with
  | insert key value =>
    intro k hk
    simp only [step] at hk ⊢
    rw [insert_mutexes_]
    by_cases hkk : k = key
    · subst hkk
      exact assign_same _ _ _
    · rw [assign_other _ _ hkk]
      rw [insert_map_other s key value hkk] at hk
      exact h k hk
  | update key price newValue =>
    intro k hk
    simp only [step] at hk ⊢
    rw [update_map_isSome] at hk
    rw [update_mutexes_]
    by_cases hkk : k = key
    · subst hkk
      exact assign_same _ _ _
    · rw [assign_other _ _ hkk]
      exact h k hk
  | remove key =>
    intro k hk
    simp only [step, remove] at hk ⊢
    by_cases hkk : k = key
    · subst hkk
      simp [assign_same] at hk
    · rw [assign_other _ _ hkk] at hk ⊢
      exact h k hk
  | get_lowest_price key =>
    simp only [step, get_lowest_price_state]
    exact get_mutex_covers s key h
  | get_highest_price key =>
    simp only [step, get_highest_price_state]
    exact get_mutex_covers s key h

theorem run_covers (ops : List (Op K)) :
    ∀ s : ConcurrentHashMap K, locksCoverKeys s → locksCoverKeys (run s ops) := by
  induction ops with
  | nil => intro s hs; simpa [run] using hs
  | cons o os ih =>
    intro s hs
    simpa [run] using ih (step s o) (step_covers s o hs)

omit [DecidableEq K] in
theorem empty_covers : locksCoverKeys (empty : ConcurrentHashMap K) := by
  intro k hk
  simp [empty] at hk

/-! ## Update -/

/-- Claim C3 (update-replace): when the key is in `map_` and its vector holds
a record of price `p`, `update(key, p, r)` keeps the length of the vector,
puts exactly `r` at the position of the first record of price `p`, and leaves
the record at every other position as it was. -/
theorem update_replaces_first_match (s : ConcurrentHashMap K) (key : K) (p : Int)
    (r : Order) (l : List Order) (hl : s.map_ key = some l) (hp : ∃ o ∈ l, o.price = p) :
    ∃ (i : Nat) (o : Order) (l' : List Order), l[i]? = some o ∧ o.price = p ∧
      (∀ (j : Nat) (o' : Order), j < i → l[j]? = some o' → o'.price ≠ p) ∧
      (update s key p r).state.map_ key = some l' ∧
      l'.length = l.length ∧ l'[i]? = some r ∧ ∀ j, j ≠ i → l'[j]? = l[j]? := by
  obtain ⟨o0, ho0, hpo0⟩ := hp
  have hex : ∃ v ∈ l, (fun v : Order => v.price == p) v = true := ⟨o0, ho0, by simp [hpo0]⟩
  obtain ⟨i, hf⟩ := find_if_isSome hex
  obtain ⟨⟨o, ho, hpo⟩, hbefore⟩ := find_if_eq_some hf
  have hi : i < l.length := by
    rcases Nat.lt_or_ge i l.length with h | h
    · exact h
    · rw [List.getElem?_eq_none h] at ho
      cases ho
  refine ⟨i, o, l.set i r, ho, by simpa using hpo, ?_, ?_, by simp, ?_, ?_⟩
  · intro j o' hj ho'
    simpa using hbefore j hj o' ho'
  · rw [update_map_of_some s key p r l i hl hf, assign_same]
  · rw [List.getElem?_set_self hi]
  · intro j hj
    rw [List.getElem?_set_ne (Ne.symm hj)]

/-- A vector with two records of price 200: only the first one is replaced. -/
theorem update_replaces_first_match_witness :
    (run (empty : ConcurrentHashMap String)
        [Op.insert "A" ⟨1, 100⟩, Op.insert "A" ⟨1, 200⟩, Op.update "A" 100 ⟨5, 200⟩]).map_ "A"
        = some [⟨5, 200⟩, ⟨1, 200⟩] ∧
      (∃ o ∈ [(⟨5, 200⟩ : Order), ⟨1, 200⟩], o.price = 200) ∧
      ∃ (i : Nat) (o : Order) (l' : List Order),
        [(⟨5, 200⟩ : Order), ⟨1, 200⟩][i]? = some o ∧ o.price = 200 ∧
        (∀ (j : Nat) (o' : Order), j < i →
          [(⟨5, 200⟩ : Order), ⟨1, 200⟩][j]? = some o' → o'.price ≠ 200) ∧
        (update (run (empty : ConcurrentHashMap String)
          [Op.insert "A" ⟨1, 100⟩, Op.insert "A" ⟨1, 200⟩, Op.update "A" 100 ⟨5, 200⟩])
          "A" 200 ⟨7, 250⟩).state.map_ "A" = some l' ∧
        l'.length = [(⟨5, 200⟩ : Order), ⟨1, 200⟩].length ∧ l'[i]? = some ⟨7, 250⟩ ∧
        ∀ j, j ≠ i → l'[j]? = [(⟨5, 200⟩ : Order), ⟨1, 200⟩][j]? :=
  ⟨by decide, by decide,
    update_replaces_first_match
      (run (empty : ConcurrentHashMap String)
        [Op.insert "A" ⟨1, 100⟩, Op.insert "A" ⟨1, 200⟩, Op.update "A" 100 ⟨5, 200⟩])
      "A" 200 ⟨7, 250⟩ [⟨5, 200⟩, ⟨1, 200⟩] (by decide) (by decide)⟩

/-- Claim C4 (update never creates a key): when the key is not in `map_`,
`update` prints the key-not-found error, the key is still not in `map_`
afterwards, and `map_` is what it was before the call. -/
theorem update_absent_key_keeps_map (s : ConcurrentHashMap K) (key : K) (price : Int)
    (newValue : Order) (h : s.map_ key = none) :
    (update s key price newValue).log = [Msg.keyNotFoundUpdate] ∧
      (update s key price newValue).state.map_ key = none ∧
      (update s key price newValue).state.map_ = s.map_ := by
  simp [update_of_absent s key price newValue h, get_mutex_map_, h]

/-- Updating the missing key "B" of a store that holds "A". -/
theorem update_absent_key_keeps_map_witness :
    (insert (empty : ConcurrentHashMap String) "A" ⟨1, 100⟩).state.map_ "B" = none ∧
      (update (insert (empty : ConcurrentHashMap String) "A" ⟨1, 100⟩).state
        "B" 100 ⟨2, 100⟩).log = [Msg.keyNotFoundUpdate] ∧
      (update (insert (empty : ConcurrentHashMap String) "A" ⟨1, 100⟩).state
        "B" 100 ⟨2, 100⟩).state.map_ "B" = none ∧
      (update (insert (empty : ConcurrentHashMap String) "A" ⟨1, 100⟩).state
        "B" 100 ⟨2, 100⟩).state.map_
        = (insert (empty : ConcurrentHashMap String) "A" ⟨1, 100⟩).state.map_ :=
  ⟨by decide, update_absent_key_keeps_map _ "B" 100 ⟨2, 100⟩ (by decide)⟩

/-- Claim C5, refuted as stated: `update` on a key that is in neither map
prints the key-not-found error and leaves a mutex for that key behind, so the
structure is not what it was before the call. -/
theorem update_missing_key_installs_mutex :
    holdsPrice (run (empty : ConcurrentHashMap String) []) "X" 1 = false ∧
      (update (run (empty : ConcurrentHashMap String) []) "X" 1 ⟨1, 1⟩).log
        = [Msg.keyNotFoundUpdate] ∧
      (run (empty : ConcurrentHashMap String) []).mutexes_ "X" = false ∧
      (update (run (empty : ConcurrentHashMap String) []) "X" 1 ⟨1, 1⟩).state.mutexes_ "X"
        = true ∧
      (update (run (empty : ConcurrentHashMap String) []) "X" 1 ⟨1, 1⟩).state
        ≠ run (empty : ConcurrentHashMap String) [] := by
  refine ⟨by decide, by decide, by decide, by decide, ?_⟩
  intro h
  have hx := congrArg (fun t => t.mutexes_ "X") h
  revert hx
  decide

/-- Claim C5, amended: in a state reached from the empty store, when the key
is absent or its vector has no record of price `p`, `update(key, p, r)` prints
the matching error (key not found, respectively order not found), leaves
`map_` as it was, and leaves `mutexes_` as it was except that `key` owns a
mutex afterwards; the whole structure is unchanged when the key is in `map_`
or already owned a mutex. -/
theorem update_not_found_frame (ops : List (Op K)) (key : K) (p : Int) (r : Order)
    (h : holdsPrice (run (empty : ConcurrentHashMap K) ops) key p = false) :
    (update (run empty ops) key p r).log =
        [if ((run (empty : ConcurrentHashMap K) ops).map_ key).isNone
          then Msg.keyNotFoundUpdate else Msg.orderNotFoundUpdate] ∧
      (update (run empty ops) key p r).state.map_ = (run empty ops).map_ ∧
      (update (run empty ops) key p r).state.mutexes_
        = assign (run empty ops).mutexes_ key true ∧
      ((((run (empty : ConcurrentHashMap K) ops).map_ key).isSome = true ∨
          (run (empty : ConcurrentHashMap K) ops).mutexes_ key = true) →
        (update (run empty ops) key p r).state = run empty ops) := by
  have hcov : locksCoverKeys (run (empty : ConcurrentHashMap K) ops) :=
    run_covers ops empty empty_covers
  generalize run (empty : ConcurrentHashMap K) ops = s at h hcov ⊢
  have hstate : (update s key p r).state = get_mutex s key ∧
      (update s key p r).log =
        [if (s.map_ key).isNone then Msg.keyNotFoundUpdate else Msg.orderNotFoundUpdate] := by
    cases hk : s.map_ key with
    | none => simp [update_of_absent s key p r hk]
    | some orders =>
      have h0 := (holdsPrice_false_iff s key p).mp h
      rw [hk] at h0
      have hf : find_if (fun v => v.price == p) orders = none := find_if_eq_none.mpr h0
      simp [update_of_no_price s key p r orders hk hf]
  refine ⟨hstate.2, ?_, ?_, ?_⟩
  · rw [hstate.1, get_mutex_map_]
  · rw [hstate.1, get_mutex_mutexes_]
  · intro hor
    rw [hstate.1]
    apply get_mutex_of_locked
    rcases hor with hp | hm
    · exact hcov key hp
    · exact hm

/-- A missing price under a present key: the error is order-not-found and
nothing changes. -/
theorem update_not_found_frame_witness :
    holdsPrice (run (empty : ConcurrentHashMap String) [Op.insert "A" ⟨1, 100⟩]) "A" 999
        = false ∧
      ((run (empty : ConcurrentHashMap String) [Op.insert "A" ⟨1, 100⟩]).map_ "A").isSome
        = true ∧
      (update (run (empty : ConcurrentHashMap String) [Op.insert "A" ⟨1, 100⟩])
        "A" 999 ⟨2, 999⟩).log = [Msg.orderNotFoundUpdate] ∧
      (update (run (empty : ConcurrentHashMap String) [Op.insert "A" ⟨1, 100⟩])
        "A" 999 ⟨2, 999⟩).state
        = run (empty : ConcurrentHashMap String) [Op.insert "A" ⟨1, 100⟩] :=
  ⟨by decide, by decide,
    (update_not_found_frame [Op.insert "A" ⟨1, 100⟩] "A" 999 ⟨2, 999⟩ (by decide)).1,
    (update_not_found_frame [Op.insert "A" ⟨1, 100⟩] "A" 999 ⟨2, 999⟩ (by decide)).2.2.2
      (Or.inl (by decide))⟩

/-! ## Remove -/

/-- Claim C6 (remove then query): when the key is in `map_`, `remove(key)`
prints no error, and afterwards `get_lowest_price(key)`,
`get_highest_price(key)` and `update(key, p, r)` all take their key-not-found
branch, whatever the key's vector was. -/
theorem remove_then_query_key_not_found (s : ConcurrentHashMap K) (key : K)
    (h : (s.map_ key).isSome = true) (p : Int) (r : Order) :
    (remove s key).log = [] ∧
      (get_lowest_price (remove s key).state key).log = [Msg.keyNotFoundLowest] ∧
      (get_lowest_price (remove s key).state key).ret = -1 ∧
      (get_highest_price (remove s key).state key).log = [Msg.keyNotFoundHighest] ∧
      (get_highest_price (remove s key).state key).ret = -1 ∧
      (update (remove s key).state key p r).log = [Msg.keyNotFoundUpdate] := by
  have hnone : (remove s key).state.map_ key = none := by simp [remove, assign_same]
  refine ⟨?_, ?_, ?_, ?_, ?_, ?_⟩
  · cases hk : s.map_ key with
    | none => simp [hk] at h
    | some l => simp [remove, hk]
  · simp [get_lowest_price, get_mutex_map_, hnone]
  · simp [get_lowest_price, get_mutex_map_, hnone]
  · simp [get_highest_price, get_mutex_map_, hnone]
  · simp [get_highest_price, get_mutex_map_, hnone]
  · rw [update_of_absent _ key p r hnone]

/-- The scenario of the specification: insert "HDFCBANK", remove it, query it. -/
theorem remove_then_query_key_not_found_witness :
    ((insert (empty : ConcurrentHashMap String) "HDFCBANK" ⟨20, 1400⟩).state.map_
        "HDFCBANK").isSome = true ∧
      (remove (insert (empty : ConcurrentHashMap String) "HDFCBANK" ⟨20, 1400⟩).state
        "HDFCBANK").log = [] ∧
      (get_lowest_price (remove (insert (empty : ConcurrentHashMap String) "HDFCBANK"
        ⟨20, 1400⟩).state "HDFCBANK").state "HDFCBANK").log = [Msg.keyNotFoundLowest] ∧
      (get_lowest_price (remove (insert (empty : ConcurrentHashMap String) "HDFCBANK"
        ⟨20, 1400⟩).state "HDFCBANK").state "HDFCBANK").ret = -1 ∧
      (get_highest_price (remove (insert (empty : ConcurrentHashMap String) "HDFCBANK"
        ⟨20, 1400⟩).state "HDFCBANK").state "HDFCBANK").log = [Msg.keyNotFoundHighest] ∧
      (get_highest_price (remove (insert (empty : ConcurrentHashMap String) "HDFCBANK"
        ⟨20, 1400⟩).state "HDFCBANK").state "HDFCBANK").ret = -1 ∧
      (update (remove (insert (empty : ConcurrentHashMap String) "HDFCBANK"
        ⟨20, 1400⟩).state "HDFCBANK").state "HDFCBANK" 1400 ⟨18, 1400⟩).log
        = [Msg.keyNotFoundUpdate] :=
  ⟨by decide, remove_then_query_key_not_found _ "HDFCBANK" (by decide) 1400 ⟨18, 1400⟩⟩

/-- Claim C7 (remove frame): after `remove(key)` the key is in neither
`map_` nor `mutexes_`, and any other key has the vector and the mutex (or the
absence of one) it had before the call. -/
theorem remove_erases_entry_and_mutex (s : ConcurrentHashMap K) (key k : K)
    (hk : k ≠ key) :
    (remove s key).state.map_ key = none ∧
      (remove s key).state.mutexes_ key = false ∧
      (remove s key).state.map_ k = s.map_ k ∧
      (remove s key).state.mutexes_ k = s.mutexes_ k := by
  simp [remove, assign_same, assign_other _ _ hk]

/-- Removing "HDFCBANK" from the store of the built-in test leaves "RELIANCE" alone. -/
theorem remove_erases_entry_and_mutex_witness :
    ("RELIANCE" : String) ≠ "HDFCBANK" ∧
      (remove (run (empty : ConcurrentHashMap String)
        [Op.insert "HDFCBANK" ⟨20, 1400⟩, Op.insert "RELIANCE" ⟨25, 2500⟩])
        "HDFCBANK").state.map_ "HDFCBANK" = none ∧
      (remove (run (empty : ConcurrentHashMap String)
        [Op.insert "HDFCBANK" ⟨20, 1400⟩, Op.insert "RELIANCE" ⟨25, 2500⟩])
        "HDFCBANK").state.mutexes_ "HDFCBANK" = false ∧
      (remove (run (empty : ConcurrentHashMap String)
        [Op.insert "HDFCBANK" ⟨20, 1400⟩, Op.insert "RELIANCE" ⟨25, 2500⟩])
        "HDFCBANK").state.map_ "RELIANCE"
        = (run (empty : ConcurrentHashMap String)
          [Op.insert "HDFCBANK" ⟨20, 1400⟩, Op.insert "RELIANCE" ⟨25, 2500⟩]).map_
            "RELIANCE" ∧
      (remove (run (empty : ConcurrentHashMap String)
        [Op.insert "HDFCBANK" ⟨20, 1400⟩, Op.insert "RELIANCE" ⟨25, 2500⟩])
        "HDFCBANK").state.mutexes_ "RELIANCE"
        = (run (empty : ConcurrentHashMap String)
          [Op.insert "HDFCBANK" ⟨20, 1400⟩, Op.insert "RELIANCE" ⟨25, 2500⟩]).mutexes_
            "RELIANCE" :=
  ⟨by decide, remove_erases_entry_and_mutex _ "HDFCBANK" "RELIANCE" (by decide)⟩

/-- Claim C8, refuted as stated: a failed `update` on the missing key "X"
leaves a mutex for "X" behind; `remove("X")` then prints the key-not-found
error and erases that mutex, so the structure changes. -/
theorem remove_missing_key_erases_mutex :
    (run (empty : ConcurrentHashMap String) [Op.update "X" 1 ⟨1, 1⟩]).map_ "X" = none ∧
      (remove (run (empty : ConcurrentHashMap String) [Op.update "X" 1 ⟨1, 1⟩]) "X").log
        = [Msg.keyNotFoundRemoval] ∧
      (run (empty : ConcurrentHashMap String) [Op.update "X" 1 ⟨1, 1⟩]).mutexes_ "X"
        = true ∧
      (remove (run (empty : ConcurrentHashMap String) [Op.update "X" 1 ⟨1, 1⟩])
        "X").state.mutexes_ "X" = false ∧
      (remove (run (empty : ConcurrentHashMap String) [Op.update "X" 1 ⟨1, 1⟩]) "X").state
        ≠ run (empty : ConcurrentHashMap String) [Op.update "X" 1 ⟨1, 1⟩] := by
  refine ⟨by decide, by decide, by decide, by decide, ?_⟩
  intro h
  have hx := congrArg (fun t => t.mutexes_ "X") h
  revert hx
  decide

/-- Claim C8, amended: in a state reached from the empty store by insert,
update, remove and the price queries, `remove` of a key that is not in `map_`
prints the key-not-found error, leaves `map_` as it was, and leaves
`mutexes_` as it was except that `key` owns no mutex afterwards; the whole
structure is unchanged when the key owned no mutex. -/
theorem remove_missing_key_frame (ops : List (Op K)) (key : K)
    (h : (run (empty : ConcurrentHashMap K) ops).map_ key = none) :
    (remove (run empty ops) key).log = [Msg.keyNotFoundRemoval] ∧
      (remove (run empty ops) key).state.map_ = (run empty ops).map_ ∧
      (remove (run empty ops) key).state.mutexes_
        = assign (run empty ops).mutexes_ key false ∧
      ((run (empty : ConcurrentHashMap K) ops).mutexes_ key = false →
        (remove (run empty ops) key).state = run empty ops) := by
  generalize run (empty : ConcurrentHashMap K) ops = s at h ⊢
  refine ⟨by simp [remove, h], ?_, rfl, ?_⟩
  · exact assign_eq_self s.map_ key none h
  · intro hm
    cases s with
    | mk m mu =>
      simp only [remove]
      congr
      · exact assign_eq_self m key none h
      · exact assign_eq_self mu key false hm

/-- Removing a key that was never touched changes nothing. -/
theorem remove_missing_key_frame_witness :
    (run (empty : ConcurrentHashMap String) [Op.insert "A" ⟨1, 100⟩]).map_ "B" = none ∧
      (run (empty : ConcurrentHashMap String) [Op.insert "A" ⟨1, 100⟩]).mutexes_ "B"
        = false ∧
      (remove (run (empty : ConcurrentHashMap String) [Op.insert "A" ⟨1, 100⟩]) "B").log
        = [Msg.keyNotFoundRemoval] ∧
      (remove (run (empty : ConcurrentHashMap String) [Op.insert "A" ⟨1, 100⟩]) "B").state
        = run (empty : ConcurrentHashMap String) [Op.insert "A" ⟨1, 100⟩] :=
  ⟨by decide, by decide,
    (remove_missing_key_frame [Op.insert "A" ⟨1, 100⟩] "B" (by decide)).1,
    (remove_missing_key_frame [Op.insert "A" ⟨1, 100⟩] "B" (by decide)).2.2.2 (by decide)⟩

/-! ## Price queries -/

/-- Claim C9: when the key's vector is non-empty, `get_lowest_price(key)`
returns the price of some record of the vector, and that price is at most the
price of every record of the vector. -/
theorem get_lowest_price_is_minimum (s : ConcurrentHashMap K) (key : K) (l : List Order)
    (hl : s.map_ key = some l) (hne : l ≠ []) :
    (∃ o ∈ l, o.price = (get_lowest_price s key).ret) ∧
      ∀ o ∈ l, (get_lowest_price s key).ret ≤ o.price := by
  cases l with
  | nil => exact absurd rfl hne
  | cons first rest =>
    have hret : (get_lowest_price s key).ret =
        (min_element (fun a b => decide (a.price < b.price)) first rest).price := by
      simp only [get_lowest_price, get_mutex_map_, hl]
    rw [hret]
    obtain ⟨hm, hle⟩ := min_element_spec rest first
    exact ⟨⟨_, hm, rfl⟩, hle⟩

/-- Prices 5, -3 and 9 under one key: the lowest is -3. -/
theorem get_lowest_price_is_minimum_witness :
    (run (empty : ConcurrentHashMap String)
        [Op.insert "A" ⟨1, 5⟩, Op.insert "A" ⟨2, -3⟩, Op.insert "A" ⟨3, 9⟩]).map_ "A"
        = some [⟨1, 5⟩, ⟨2, -3⟩, ⟨3, 9⟩] ∧
      (get_lowest_price (run (empty : ConcurrentHashMap String)
        [Op.insert "A" ⟨1, 5⟩, Op.insert "A" ⟨2, -3⟩, Op.insert "A" ⟨3, 9⟩]) "A").ret = -3 ∧
      (∃ o ∈ [(⟨1, 5⟩ : Order), ⟨2, -3⟩, ⟨3, 9⟩],
        o.price = (get_lowest_price (run (empty : ConcurrentHashMap String)
          [Op.insert "A" ⟨1, 5⟩, Op.insert "A" ⟨2, -3⟩, Op.insert "A" ⟨3, 9⟩]) "A").ret) ∧
      ∀ o ∈ [(⟨1, 5⟩ : Order), ⟨2, -3⟩, ⟨3, 9⟩],
        (get_lowest_price (run (empty : ConcurrentHashMap String)
          [Op.insert "A" ⟨1, 5⟩, Op.insert "A" ⟨2, -3⟩, Op.insert "A" ⟨3, 9⟩]) "A").ret
          ≤ o.price :=
  ⟨by decide, by decide,
    get_lowest_price_is_minimum
      (run (empty : ConcurrentHashMap String)
        [Op.insert "A" ⟨1, 5⟩, Op.insert "A" ⟨2, -3⟩, Op.insert "A" ⟨3, 9⟩])
      "A" [⟨1, 5⟩, ⟨2, -3⟩, ⟨3, 9⟩] (by decide) (by decide)⟩

/-- Claim C10: when the key's vector is non-empty, `get_highest_price(key)`
returns the price of some record of the vector, and that price is at least
the price of every record of the vector. -/
theorem get_highest_price_is_maximum (s : ConcurrentHashMap K) (key : K) (l : List Order)
    (hl : s.map_ key = some l) (hne : l ≠ []) :
    (∃ o ∈ l, o.price = (get_highest_price s key).ret) ∧
      ∀ o ∈ l, o.price ≤ (get_highest_price s key).ret := by
  cases l with
  | nil => exact absurd rfl hne
  | cons first rest =>
    have hret : (get_highest_price s key).ret =
        (max_element (fun a b => decide (a.price < b.price)) first rest).price := by
      simp only [get_highest_price, get_mutex_map_, hl]
    rw [hret]
    obtain ⟨hm, hle⟩ := max_element_spec rest first
    exact ⟨⟨_, hm, rfl⟩, hle⟩

/-- Prices -5, -3 and -9 under one key: the highest is -3. -/
theorem get_highest_price_is_maximum_witness :
    (run (empty : ConcurrentHashMap String)
        [Op.insert "A" ⟨1, -5⟩, Op.insert "A" ⟨2, -3⟩, Op.insert "A" ⟨3, -9⟩]).map_ "A"
        = some [⟨1, -5⟩, ⟨2, -3⟩, ⟨3, -9⟩] ∧
      (get_highest_price (run (empty : ConcurrentHashMap String)
        [Op.insert "A" ⟨1, -5⟩, Op.insert "A" ⟨2, -3⟩, Op.insert "A" ⟨3, -9⟩]) "A").ret
        = -3 ∧
      (∃ o ∈ [(⟨1, -5⟩ : Order), ⟨2, -3⟩, ⟨3, -9⟩],
        o.price = (get_highest_price (run (empty : ConcurrentHashMap String)
          [Op.insert "A" ⟨1, -5⟩, Op.insert "A" ⟨2, -3⟩, Op.insert "A" ⟨3, -9⟩]) "A").ret) ∧
      ∀ o ∈ [(⟨1, -5⟩ : Order), ⟨2, -3⟩, ⟨3, -9⟩],
        o.price ≤ (get_highest_price (run (empty : ConcurrentHashMap String)
          [Op.insert "A" ⟨1, -5⟩, Op.insert "A" ⟨2, -3⟩, Op.insert "A" ⟨3, -9⟩]) "A").ret :=
  ⟨by decide, by decide,
    get_highest_price_is_maximum
      (run (empty : ConcurrentHashMap String)
        [Op.insert "A" ⟨1, -5⟩, Op.insert "A" ⟨2, -3⟩, Op.insert "A" ⟨3, -9⟩])
      "A" [⟨1, -5⟩, ⟨2, -3⟩, ⟨3, -9⟩] (by decide) (by decide)⟩

theorem get_lowest_price_ret_of_absent (s : ConcurrentHashMap K) (key : K)
    (h : s.map_ key = none ∨ s.map_ key = some []) : (get_lowest_price s key).ret = -1 := by
  rcases h with h | h <;> simp [get_lowest_price, get_mutex_map_, h]

theorem get_highest_price_ret_of_absent (s : ConcurrentHashMap K) (key : K)
    (h : s.map_ key = none ∨ s.map_ key = some []) : (get_highest_price s key).ret = -1 := by
  rcases h with h | h <;> simp [get_highest_price, get_mutex_map_, h]

theorem get_lowest_price_ret_spec (s : ConcurrentHashMap K) (key : K) (l : List Order)
    (hl : s.map_ key = some l) (hne : l ≠ []) :
    (∃ o ∈ l, o.price = (get_lowest_price s key).ret) ∧
      ∀ o ∈ l, (get_lowest_price s key).ret ≤ o.price := by
  cases l with
  | nil => exact absurd rfl hne
  | cons first rest =>
    have hret : (get_lowest_price s key).ret =
        (min_element (fun a b => decide (a.price < b.price)) first rest).price := by
      simp only [get_lowest_price, get_mutex_map_, hl]
    rw [hret]
    obtain ⟨hm, hle⟩ := min_element_spec rest first
    exact ⟨⟨_, hm, rfl⟩, hle⟩

theorem get_highest_price_ret_spec (s : ConcurrentHashMap K) (key : K) (l : List Order)
    (hl : s.map_ key = some l) (hne : l ≠ []) :
    (∃ o ∈ l, o.price = (get_highest_price s key).ret) ∧
      ∀ o ∈ l, o.price ≤ (get_highest_price s key).ret := by
  cases l with
  | nil => exact absurd rfl hne
  | cons first rest =>
    have hret : (get_highest_price s key).ret =
        (max_element (fun a b => decide (a.price < b.price)) first rest).price := by
      simp only [get_highest_price, get_mutex_map_, hl]
    rw [hret]
    obtain ⟨hm, hle⟩ := max_element_spec rest first
    exact ⟨⟨_, hm, rfl⟩, hle⟩

/-- Claim C11, refuted as stated: on the empty store `get_lowest_price("A")`
and `get_highest_price("A")` return -1, and they return the same -1 on a store
whose key "A" holds one record of price -1. -/
theorem not_found_value_collides_with_price :
    (empty : ConcurrentHashMap String).map_ "A" = none ∧
      (insert (empty : ConcurrentHashMap String) "A" ⟨1, -1⟩).state.map_ "A"
        = some [⟨1, -1⟩] ∧
      (get_lowest_price (empty : ConcurrentHashMap String) "A").ret
        = (get_lowest_price (insert (empty : ConcurrentHashMap String) "A" ⟨1, -1⟩).state
            "A").ret ∧
      (get_highest_price (empty : ConcurrentHashMap String) "A").ret
        = (get_highest_price (insert (empty : ConcurrentHashMap String) "A" ⟨1, -1⟩).state
            "A").ret := by
  decide

/-- Claim C11, amended: when the key is absent from `s1` (or its vector is
empty) and has a non-empty vector in `s2`, both price queries return -1 on
`s1`; `get_lowest_price` returns a different value on `s2` exactly when -1 is
not the lowest price of that vector, and `get_highest_price` returns a
different value on `s2` exactly when -1 is not its highest price. -/
theorem not_found_value_differs_unless_minus_one (s1 s2 : ConcurrentHashMap K) (key : K)
    (l : List Order) (h1 : s1.map_ key = none ∨ s1.map_ key = some [])
    (h2 : s2.map_ key = some l) (hne : l ≠ []) :
    (get_lowest_price s1 key).ret = -1 ∧ (get_highest_price s1 key).ret = -1 ∧
      ((get_lowest_price s1 key).ret ≠ (get_lowest_price s2 key).ret ↔
        ¬ ((∃ o ∈ l, o.price = -1) ∧ ∀ o ∈ l, -1 ≤ o.price)) ∧
      ((get_highest_price s1 key).ret ≠ (get_highest_price s2 key).ret ↔
        ¬ ((∃ o ∈ l, o.price = -1) ∧ ∀ o ∈ l, o.price ≤ -1)) := by
  have hlo := get_lowest_price_ret_of_absent s1 key h1
  have hhi := get_highest_price_ret_of_absent s1 key h1
  obtain ⟨⟨a, ha, hap⟩, hmin⟩ := get_lowest_price_ret_spec s2 key l h2 hne
  obtain ⟨⟨b, hb, hbp⟩, hmax⟩ := get_highest_price_ret_spec s2 key l h2 hne
  refine ⟨hlo, hhi, ?_, ?_⟩
  · rw [hlo, not_iff_not]
    constructor
    · intro heq
      exact ⟨⟨a, ha, by rw [hap, ← heq]⟩, fun o ho => by rw [heq]; exact hmin o ho⟩
    · rintro ⟨⟨o, ho, hop⟩, hall⟩
      have h3 := hmin o ho
      have h4 := hall a ha
      omega
  · rw [hhi, not_iff_not]
    constructor
    · intro heq
      exact ⟨⟨b, hb, by rw [hbp, ← heq]⟩, fun o ho => by rw [heq]; exact hmax o ho⟩
    · rintro ⟨⟨o, ho, hop⟩, hall⟩
      have h3 := hmax o ho
      have h4 := hall b hb
      omega

/-- Prices 0 and -7 under "A" in one store, no key "A" in the other: the
lowest price -7 differs from the -1 returned on the store without "A". -/
theorem not_found_value_differs_unless_minus_one_witness :
    ((run (empty : ConcurrentHashMap String) [Op.insert "B" ⟨1, 5⟩]).map_ "A" = none ∨
      (run (empty : ConcurrentHashMap String) [Op.insert "B" ⟨1, 5⟩]).map_ "A" = some []) ∧
      (run (empty : ConcurrentHashMap String)
        [Op.insert "A" ⟨1, 0⟩, Op.insert "A" ⟨2, -7⟩]).map_ "A" = some [⟨1, 0⟩, ⟨2, -7⟩] ∧
      (get_lowest_price (run (empty : ConcurrentHashMap String)
        [Op.insert "B" ⟨1, 5⟩]) "A").ret = -1 ∧
      (get_lowest_price (run (empty : ConcurrentHashMap String)
        [Op.insert "A" ⟨1, 0⟩, Op.insert "A" ⟨2, -7⟩]) "A").ret = -7 ∧
      (get_highest_price (run (empty : ConcurrentHashMap String)
        [Op.insert "A" ⟨1, 0⟩, Op.insert "A" ⟨2, -7⟩]) "A").ret = 0 ∧
      (¬ ((∃ o ∈ [(⟨1, 0⟩ : Order), ⟨2, -7⟩], o.price = -1) ∧
        ∀ o ∈ [(⟨1, 0⟩ : Order), ⟨2, -7⟩], -1 ≤ o.price)) ∧
      (get_lowest_price (run (empty : ConcurrentHashMap String)
        [Op.insert "B" ⟨1, 5⟩]) "A").ret ≠
      (get_lowest_price (run (empty : ConcurrentHashMap String)
        [Op.insert "A" ⟨1, 0⟩, Op.insert "A" ⟨2, -7⟩]) "A").ret :=
  ⟨Or.inl (by decide), by decide, by decide, by decide, by decide, by decide,
    (not_found_value_differs_unless_minus_one
      (run (empty : ConcurrentHashMap String) [Op.insert "B" ⟨1, 5⟩])
      (run (empty : ConcurrentHashMap String) [Op.insert "A" ⟨1, 0⟩, Op.insert "A" ⟨2, -7⟩])
      "A" [⟨1, 0⟩, ⟨2, -7⟩] (Or.inl (by decide)) (by decide) (by decide)).2.2.1.mpr
      (by decide)⟩

/-! ## Registry of mutexes -/

theorem insert_map_key_isSome (s : ConcurrentHashMap K) (key : K) (value : Order) :
    ((insert s key value).state.map_ key).isSome = true := by
  cases hf : find_if (fun v => v.price == value.price) ((s.map_ key).getD []) with
  | none => simp [insert_map_of_none s key value hf, assign_same]
  | some i => simp [insert_map_of_some s key value i hf, assign_same]

theorem update_map_other (s : ConcurrentHashMap K) (key : K) (price : Int)
    (newValue : Order) {k : K} (hk : k ≠ key) :
    (update s key price newValue).state.map_ k = s.map_ k := by
  cases hkey : s.map_ key with
  | none => simp [update_of_absent s key price newValue hkey, get_mutex_map_]
  | some orders =>
    cases hf : find_if (fun v => v.price == price) orders with
    | none => simp [update_of_no_price s key price newValue orders hkey hf, get_mutex_map_]
    | some i => rw [update_map_of_some s key price newValue orders i hkey hf, assign_other _ _ hk]

theorem get_mutex_matches (s : ConcurrentHashMap K) (key : K) (h : locksMatchKeys s)
    (hp : (s.map_ key).isSome = true) : locksMatchKeys (get_mutex s key) := by
  intro k
  rw [get_mutex_map_, get_mutex_mutexes_]
  by_cases hk : k = key
  · subst hk
    simp [assign_same, hp]
  · rw [assign_other _ _ hk]
    exact h k

theorem step_matches (s : ConcurrentHashMap K) (o : Op K) (h : locksMatchKeys s)
    (hg : Op.onPresentKey s o = true) : locksMatchKeys (step s o) := by
  cases o with
  | insert key value =>
    intro k
    simp only [step]
    rw [insert_mutexes_]
    by_cases hk : k = key
    · subst hk
      simp [assign_same, insert_map_key_isSome]
    · rw [assign_other _ _ hk, insert_map_other s key value hk]
      exact h k
  | update key price newValue =>
    intro k
    simp only [step]
    rw [update_mutexes_, update_map_isSome]
    by_cases hk : k = key
    · subst hk
      simp only [assign_same, true_iff]
      simpa [Op.onPresentKey] using hg
    · rw [assign_other _ _ hk]
      exact h k
  | remove key =>
    intro k
    simp only [step, remove]
    by_cases hk : k = key
    · subst hk
      simp [assign_same]
    · rw [assign_other _ _ hk, assign_other _ _ hk]
      exact h k
  | get_lowest_price key =>
    simp only [step, get_lowest_price_state]
    exact get_mutex_matches s key h (by simpa [Op.onPresentKey] using hg)
  | get_highest_price key =>
    simp only [step, get_highest_price_state]
    exact get_mutex_matches s key h (by simpa [Op.onPresentKey] using hg)

theorem run_matches (ops : List (Op K)) :
    ∀ s : ConcurrentHashMap K, locksMatchKeys s → onPresentKeysFrom s ops = true →
      locksMatchKeys (run s ops) := by
  induction ops with
  | nil => intro s hs _; simpa [run] using hs
  | cons o os ih =>
    intro s hs hg
    simp only [onPresentKeysFrom, Bool.and_eq_true] at hg
    simpa [run] using ih (step s o) (step_matches s o hs hg.1) hg.2

/-- Claim C12, refuted as stated: after `insert("A", …)` and a failed
`update("X", …)` on the missing key "X", "X" owns a mutex but has no entry in
`map_`. -/
theorem update_missing_key_leaves_orphan_mutex :
    (run (empty : ConcurrentHashMap String)
        [Op.insert "A" ⟨1, 100⟩, Op.update "X" 1 ⟨1, 1⟩]).mutexes_ "X" = true ∧
      (run (empty : ConcurrentHashMap String)
        [Op.insert "A" ⟨1, 100⟩, Op.update "X" 1 ⟨1, 1⟩]).map_ "X" = none := by
  decide

/-- Claim C12, amended: in every state reached from the empty store by a
finite sequence of insert, update, remove, get_lowest_price and
get_highest_price calls in which every update and price query is made on a
key that is in `map_` at the time of the call, a key owns a mutex exactly
when it has an entry in `map_`. -/
theorem mutex_iff_entry_of_onPresentKeys (ops : List (Op K))
    (h : onPresentKeysFrom (empty : ConcurrentHashMap K) ops = true) (k : K) :
    (run (empty : ConcurrentHashMap K) ops).mutexes_ k = true ↔
      ((run (empty : ConcurrentHashMap K) ops).map_ k).isSome = true :=
  run_matches ops empty (fun _ => by simp [empty]) h k

/-- A sequence with every kind of call; "A" has both an entry and a mutex. -/
theorem mutex_iff_entry_of_onPresentKeys_witness :
    onPresentKeysFrom (empty : ConcurrentHashMap String)
        [Op.insert "A" ⟨1, 100⟩, Op.update "A" 100 ⟨2, 100⟩, Op.get_lowest_price "A",
          Op.insert "B" ⟨1, 7⟩, Op.get_highest_price "B", Op.remove "B", Op.remove "C"]
        = true ∧
      (run (empty : ConcurrentHashMap String)
        [Op.insert "A" ⟨1, 100⟩, Op.update "A" 100 ⟨2, 100⟩, Op.get_lowest_price "A",
          Op.insert "B" ⟨1, 7⟩, Op.get_highest_price "B", Op.remove "B", Op.remove "C"]).map_
        "A" = some [⟨2, 100⟩] ∧
      ((run (empty : ConcurrentHashMap String)
        [Op.insert "A" ⟨1, 100⟩, Op.update "A" 100 ⟨2, 100⟩, Op.get_lowest_price "A",
          Op.insert "B" ⟨1, 7⟩, Op.get_highest_price "B", Op.remove "B", Op.remove "C"]).mutexes_
        "A" = true ↔
      ((run (empty : ConcurrentHashMap String)
        [Op.insert "A" ⟨1, 100⟩, Op.update "A" 100 ⟨2, 100⟩, Op.get_lowest_price "A",
          Op.insert "B" ⟨1, 7⟩, Op.get_highest_price "B", Op.remove "B", Op.remove "C"]).map_
        "A").isSome = true) :=
  ⟨by decide, by decide,
    mutex_iff_entry_of_onPresentKeys
      [Op.insert "A" ⟨1, 100⟩, Op.update "A" 100 ⟨2, 100⟩, Op.get_lowest_price "A",
        Op.insert "B" ⟨1, 7⟩, Op.get_highest_price "B", Op.remove "B", Op.remove "C"]
      (by decide) "A"⟩

/-- Claim C18: in every state reached from the empty store by a finite
sequence of insert, update, remove, get_lowest_price and get_highest_price
calls, every key that is in `map_` owns a mutex in `mutexes_`. -/
theorem every_entry_has_mutex (ops : List (Op K)) (k : K)
    (h : ((run (empty : ConcurrentHashMap K) ops).map_ k).isSome = true) :
    (run (empty : ConcurrentHashMap K) ops).mutexes_ k = true :=
  run_covers ops empty empty_covers k h

/-- A sequence that removes and re-inserts "A" and queries a missing key. -/
theorem every_entry_has_mutex_witness :
    ((run (empty : ConcurrentHashMap String)
        [Op.insert "A" ⟨1, 100⟩, Op.remove "A", Op.update "X" 1 ⟨1, 1⟩,
          Op.get_lowest_price "Y", Op.insert "A" ⟨3, 50⟩]).map_ "A").isSome = true ∧
      (run (empty : ConcurrentHashMap String)
        [Op.insert "A" ⟨1, 100⟩, Op.remove "A", Op.update "X" 1 ⟨1, 1⟩,
          Op.get_lowest_price "Y", Op.insert "A" ⟨3, 50⟩]).mutexes_ "A" = true :=
  ⟨by decide,
    every_entry_has_mutex
      [Op.insert "A" ⟨1, 100⟩, Op.remove "A", Op.update "X" 1 ⟨1, 1⟩,
        Op.get_lowest_price "Y", Op.insert "A" ⟨3, 50⟩] "A" (by decide)⟩

/-! ## Shape of the vectors -/

theorem step_nonEmpty (s : ConcurrentHashMap K) (o : Op K) (h : nonEmptyLists s) :
    nonEmptyLists (step s o) := by
  intro k l hl
  cases o with
  | insert key value =>
    simp only [step] at hl
    by_cases hk : k = key
    · subst hk
      cases hf : find_if (fun v => v.price == value.price) ((s.map_ k).getD []) with
      | none =>
        rw [insert_map_of_none s k value hf, assign_same] at hl
        cases hl
        simp
      | some i =>
        rw [insert_map_of_some s k value i hf, assign_same] at hl
        cases hl
        intro hnil
        have hlen := congrArg List.length hnil
        rw [modifyAt_length] at hlen
        have h0 : (s.map_ k).getD [] = [] := List.length_eq_zero.mp (by simpa using hlen)
        rw [h0] at hf
        simp [find_if] at hf
    · rw [insert_map_other s key value hk] at hl
      exact h k l hl
  | update key price newValue =>
    simp only [step] at hl
    by_cases hk : k = key
    · subst hk
      cases hkey : s.map_ k with
      | none =>
        have := update_map_isSome s k price newValue k
        rw [hl, hkey] at this
        simp at this
      | some orders =>
        cases hf : find_if (fun v => v.price == price) orders with
        | none =>
          rw [update_of_no_price s k price newValue orders hkey hf] at hl
          simp only [get_mutex_map_] at hl
          exact h k l hl
        | some i =>
          rw [update_map_of_some s k price newValue orders i hkey hf, assign_same] at hl
          cases hl
          intro hnil
          have hlen := congrArg List.length hnil
          rw [List.length_set] at hlen
          exact h k orders hkey (List.length_eq_zero.mp (by simpa using hlen))
    · rw [update_map_other s key price newValue hk] at hl
      exact h k l hl
  | remove key =>
    simp only [step, remove] at hl
    by_cases hk : k = key
    · subst hk
      simp [assign_same] at hl
    · rw [assign_other _ _ hk] at hl
      exact h k l hl
  | get_lowest_price key =>
    simp only [step, get_lowest_price_state, get_mutex_map_] at hl
    exact h k l hl
  | get_highest_price key =>
    simp only [step, get_highest_price_state, get_mutex_map_] at hl
    exact h k l hl

theorem run_nonEmpty (ops : List (Op K)) :
    ∀ s : ConcurrentHashMap K, nonEmptyLists s → nonEmptyLists (run s ops) := by
  induction ops with
  | nil => intro s hs; simpa [run] using hs
  | cons o os ih =>
    intro s hs
    simpa [run] using ih (step s o) (step_nonEmpty s o hs)

/-- Claim C19: in every state reached from the empty store by a finite
sequence of calls (insert, update and remove, and the price queries as well),
every key that is in `map_` has a non-empty vector, so the `orders.empty()`
branch of the price queries is not taken on such a state. -/
theorem reachable_vectors_nonempty (ops : List (Op K)) (k : K) (l : List Order)
    (h : (run (empty : ConcurrentHashMap K) ops).map_ k = some l) : l ≠ [] :=
  run_nonEmpty ops empty (fun _ _ hk => by simp [empty] at hk) k l h

/-- A key that was inserted, updated, removed and inserted again. -/
theorem reachable_vectors_nonempty_witness :
    (run (empty : ConcurrentHashMap String)
        [Op.insert "A" ⟨1, 100⟩, Op.update "A" 100 ⟨4, 120⟩, Op.remove "A",
          Op.update "A" 120 ⟨1, 1⟩, Op.insert "A" ⟨3, 50⟩]).map_ "A" = some [⟨3, 50⟩] ∧
      [(⟨3, 50⟩ : Order)] ≠ [] :=
  ⟨by decide,
    reachable_vectors_nonempty
      [Op.insert "A" ⟨1, 100⟩, Op.update "A" 100 ⟨4, 120⟩, Op.remove "A",
        Op.update "A" 120 ⟨1, 1⟩, Op.insert "A" ⟨3, 50⟩] "A" [⟨3, 50⟩] (by decide)⟩

/-- Claim C20: `insert(k, r)` and `update(k, p, r)` leave every other key
`k'` as it was: `k'` is in `map_` afterwards exactly when it was before, with
the same vector. -/
theorem insert_update_touch_only_key (s : ConcurrentHashMap K) (k k' : K) (r : Order)
    (p : Int) (h : k' ≠ k) :
    (insert s k r).state.map_ k' = s.map_ k' ∧
      (update s k p r).state.map_ k' = s.map_ k' :=
  ⟨insert_map_other s k r h, update_map_other s k p r h⟩

/-- Merging into and updating "A" leaves the vector of "B" alone. -/
theorem insert_update_touch_only_key_witness :
    ("B" : String) ≠ "A" ∧
      (insert (run (empty : ConcurrentHashMap String)
        [Op.insert "A" ⟨1, 100⟩, Op.insert "B" ⟨2, 100⟩]) "A" ⟨5, 100⟩).state.map_ "B"
        = (run (empty : ConcurrentHashMap String)
          [Op.insert "A" ⟨1, 100⟩, Op.insert "B" ⟨2, 100⟩]).map_ "B" ∧
      (update (run (empty : ConcurrentHashMap String)
        [Op.insert "A" ⟨1, 100⟩, Op.insert "B" ⟨2, 100⟩]) "A" 100 ⟨5, 100⟩).state.map_ "B"
        = (run (empty : ConcurrentHashMap String)
          [Op.insert "A" ⟨1, 100⟩, Op.insert "B" ⟨2, 100⟩]).map_ "B" :=
  ⟨by decide, insert_update_touch_only_key _ "A" "B" ⟨5, 100⟩ 100 (by decide)⟩

/-! ## Insert: append and single merge -/

/-- Claim C13: when the key's vector (empty for a key not in `map_`) holds no
record of price `r.price`, `insert(key, r)` prints the inserted-new-order
line and leaves the key in `map_` with the old vector followed by `r`. -/
theorem insert_new_price_appends (s : ConcurrentHashMap K) (key : K) (r : Order)
    (h : holdsPrice s key r.price = false) :
    (insert s key r).state.map_ key = some ((s.map_ key).getD [] ++ [r]) ∧
      (insert s key r).log = [Msg.insertedOrder key r.price] := by
  have hf : find_if (fun v => v.price == r.price) ((s.map_ key).getD []) = none :=
    find_if_eq_none.mpr ((holdsPrice_false_iff s key r.price).mp h)
  refine ⟨by rw [insert_map_of_none s key r hf, assign_same], ?_⟩
  simp only [insert, get_mutex_map_, hf]

/-- A third price level under "NESTLEIND" goes to the end of the vector. -/
theorem insert_new_price_appends_witness :
    holdsPrice (run (empty : ConcurrentHashMap String)
        [Op.insert "NESTLEIND" ⟨15, 150⟩, Op.insert "NESTLEIND" ⟨4, 140⟩]) "NESTLEIND" 160
        = false ∧
      (run (empty : ConcurrentHashMap String)
        [Op.insert "NESTLEIND" ⟨15, 150⟩, Op.insert "NESTLEIND" ⟨4, 140⟩]).map_ "NESTLEIND"
        = some [⟨15, 150⟩, ⟨4, 140⟩] ∧
      (insert (run (empty : ConcurrentHashMap String)
        [Op.insert "NESTLEIND" ⟨15, 150⟩, Op.insert "NESTLEIND" ⟨4, 140⟩])
        "NESTLEIND" ⟨9, 160⟩).state.map_ "NESTLEIND"
        = some (((run (empty : ConcurrentHashMap String)
          [Op.insert "NESTLEIND" ⟨15, 150⟩, Op.insert "NESTLEIND" ⟨4, 140⟩]).map_
            "NESTLEIND").getD [] ++ [⟨9, 160⟩]) ∧
      (insert (run (empty : ConcurrentHashMap String)
        [Op.insert "NESTLEIND" ⟨15, 150⟩, Op.insert "NESTLEIND" ⟨4, 140⟩])
        "NESTLEIND" ⟨9, 160⟩).log = [Msg.insertedOrder "NESTLEIND" 160] :=
  ⟨by decide, by decide,
    insert_new_price_appends
      (run (empty : ConcurrentHashMap String)
        [Op.insert "NESTLEIND" ⟨15, 150⟩, Op.insert "NESTLEIND" ⟨4, 140⟩])
      "NESTLEIND" ⟨9, 160⟩ (by decide)⟩

/-- Claim C17, refuted as stated: merging quantity 1 into the record
`{lotSize 2147483647, price 150}` of "A" leaves quantity -2147483648 in that
record, not 2147483647 + 1. -/
theorem insert_existing_price_sum_overflows :
    (run (empty : ConcurrentHashMap String) [Op.insert "A" ⟨2147483647, 150⟩]).map_ "A"
        = some [⟨2147483647, 150⟩] ∧
      (insert (run (empty : ConcurrentHashMap String) [Op.insert "A" ⟨2147483647, 150⟩])
        "A" ⟨1, 150⟩).state.map_ "A" = some [⟨-2147483648, 150⟩] ∧
      (-2147483648 : Int) ≠ 2147483647 + 1 := by
  decide

/-- Claim C17, amended: when the key's vector holds a record of price
`r.price`, `insert(key, r)` keeps the length of the vector, replaces the
quantity of the first record of that price by the 32-bit `int` sum of that
quantity and `r.lotSize`, which is their sum whenever it lies in the range of
`int`, keeps that record's price, and leaves the record at every other
position as it was. -/
theorem insert_existing_price_merges (s : ConcurrentHashMap K) (key : K) (r : Order)
    (l : List Order) (hl : s.map_ key = some l) (hp : ∃ o ∈ l, o.price = r.price) :
    ∃ (i : Nat) (o : Order) (l' : List Order), l[i]? = some o ∧ o.price = r.price ∧
      (∀ (j : Nat) (o' : Order), j < i → l[j]? = some o' → o'.price ≠ r.price) ∧
      (insert s key r).state.map_ key = some l' ∧
      l'.length = l.length ∧
      l'[i]? = some ⟨addInt o.lotSize r.lotSize, o.price⟩ ∧
      (INT_MIN ≤ o.lotSize + r.lotSize ∧ o.lotSize + r.lotSize ≤ INT_MAX →
        l'[i]? = some ⟨o.lotSize + r.lotSize, o.price⟩) ∧
      ∀ j, j ≠ i → l'[j]? = l[j]? := by
  obtain ⟨o0, ho0, hpo0⟩ := hp
  have hex : ∃ v ∈ l, (fun v : Order => v.price == r.price) v = true :=
    ⟨o0, ho0, by simp [hpo0]⟩
  obtain ⟨i, hf⟩ := find_if_isSome hex
  obtain ⟨⟨o, ho, hpo⟩, hbefore⟩ := find_if_eq_some hf
  have hf2 : find_if (fun v => v.price == r.price) ((s.map_ key).getD []) = some i := by
    rw [hl]; exact hf
  have hmap := insert_map_of_some s key r i hf2
  rw [hl] at hmap
  simp only [Option.getD_some] at hmap
  have hself := modifyAt_getElem?_self
    (fun v => { v with lotSize := addInt v.lotSize r.lotSize }) i l o ho
  refine ⟨i, o, _, ho, by simpa using hpo, ?_, ?_, modifyAt_length _ i l, hself, ?_, ?_⟩
  · intro j o' hj ho'
    simpa using hbefore j hj o' ho'
  · rw [hmap, assign_same]
  · intro hrange
    rw [hself]
    simp only [addInt, wrapInt_of_inRange hrange]
  · intro j hj
    exact modifyAt_getElem?_ne _ i j l hj

/-- Five more lots at price 140 go into the second record of "NESTLEIND". -/
theorem insert_existing_price_merges_witness :
    (run (empty : ConcurrentHashMap String)
        [Op.insert "NESTLEIND" ⟨15, 150⟩, Op.insert "NESTLEIND" ⟨4, 140⟩]).map_ "NESTLEIND"
        = some [⟨15, 150⟩, ⟨4, 140⟩] ∧
      (∃ o ∈ [(⟨15, 150⟩ : Order), ⟨4, 140⟩], o.price = (⟨5, 140⟩ : Order).price) ∧
      (insert (run (empty : ConcurrentHashMap String)
        [Op.insert "NESTLEIND" ⟨15, 150⟩, Op.insert "NESTLEIND" ⟨4, 140⟩])
        "NESTLEIND" ⟨5, 140⟩).state.map_ "NESTLEIND" = some [⟨15, 150⟩, ⟨9, 140⟩] ∧
      ∃ (i : Nat) (o : Order) (l' : List Order),
        [(⟨15, 150⟩ : Order), ⟨4, 140⟩][i]? = some o ∧ o.price = (⟨5, 140⟩ : Order).price ∧
        (∀ (j : Nat) (o' : Order), j < i →
          [(⟨15, 150⟩ : Order), ⟨4, 140⟩][j]? = some o' →
            o'.price ≠ (⟨5, 140⟩ : Order).price) ∧
        (insert (run (empty : ConcurrentHashMap String)
          [Op.insert "NESTLEIND" ⟨15, 150⟩, Op.insert "NESTLEIND" ⟨4, 140⟩])
          "NESTLEIND" ⟨5, 140⟩).state.map_ "NESTLEIND" = some l' ∧
        l'.length = [(⟨15, 150⟩ : Order), ⟨4, 140⟩].length ∧
        l'[i]? = some ⟨addInt o.lotSize (⟨5, 140⟩ : Order).lotSize, o.price⟩ ∧
        (INT_MIN ≤ o.lotSize + (⟨5, 140⟩ : Order).lotSize ∧
          o.lotSize + (⟨5, 140⟩ : Order).lotSize ≤ INT_MAX →
          l'[i]? = some ⟨o.lotSize + (⟨5, 140⟩ : Order).lotSize, o.price⟩) ∧
        ∀ j, j ≠ i → l'[j]? = [(⟨15, 150⟩ : Order), ⟨4, 140⟩][j]? :=
  ⟨by decide, by decide, by decide,
    insert_existing_price_merges
      (run (empty : ConcurrentHashMap String)
        [Op.insert "NESTLEIND" ⟨15, 150⟩, Op.insert "NESTLEIND" ⟨4, 140⟩])
      "NESTLEIND" ⟨5, 140⟩ [⟨15, 150⟩, ⟨4, 140⟩] (by decide) (by decide)⟩

/-! ## Inserts at distinct prices -/

theorem run_inserts_append (key : K) (rs : List Order) :
    ∀ (s : ConcurrentHashMap K) (l0 : List Order), s.map_ key = some l0 →
      distinctPrices (l0 ++ rs) →
      (run s (rs.map (fun r => Op.insert key r))).map_ key = some (l0 ++ rs) := by
  induction rs with
  | nil => intro s l0 hs _; simpa [run] using hs
  | cons r rs ih =>
    intro s l0 hs hd
    have hfresh : ∀ o ∈ l0, (o.price == r.price) = false := by
      intro o ho
      unfold distinctPrices at hd
      rw [List.map_append, List.nodup_append] at hd
      have hdis := hd.2.2 (List.mem_map_of_mem Order.price ho)
      have hne : o.price ≠ r.price := fun e => hdis (by simp [e])
      simpa using hne
    have hf : find_if (fun v => v.price == r.price) ((s.map_ key).getD []) = none := by
      rw [hs]
      exact find_if_eq_none.mpr hfresh
    have hstep : (step s (Op.insert key r)).map_ key = some (l0 ++ [r]) := by
      simp only [step, insert_map_of_none s key r hf, assign_same, hs, Option.getD_some]
    have hd2 : distinctPrices ((l0 ++ [r]) ++ rs) := by
      simpa [List.append_assoc] using hd
    have := ih (step s (Op.insert key r)) (l0 ++ [r]) hstep hd2
    simpa [run, List.append_assoc] using this

theorem run_inserts_fresh_key (key : K) (rs : List Order) (s : ConcurrentHashMap K)
    (habs : s.map_ key = none) (hd : distinctPrices rs) :
    ((run s (rs.map (fun r => Op.insert key r))).map_ key).getD [] = rs ∧
      (rs ≠ [] → (run s (rs.map (fun r => Op.insert key r))).map_ key = some rs) := by
  cases rs with
  | nil => simp [run, habs]
  | cons r rs =>
    have hf : find_if (fun v => v.price == r.price) ((s.map_ key).getD []) = none := by
      simp [habs, find_if]
    have hstep : (step s (Op.insert key r)).map_ key = some [r] := by
      simp only [step, insert_map_of_none s key r hf, assign_same, habs]
      rfl
    have := run_inserts_append key rs (step s (Op.insert key r)) [r] hstep hd
    have hrun : (run s ((r :: rs).map (fun r => Op.insert key r))).map_ key
        = some (r :: rs) := by
      simpa [run] using this
    exact ⟨by rw [hrun]; rfl, fun _ => hrun⟩

/-- Claim C14: for a key that is not in `map_` and records `rs` of pairwise
distinct prices, inserting them under that key in any order `rs'` (a
permutation of `rs`) leaves a vector of exactly as many records, which holds
the very records of `rs` (each with its own quantity) and no price twice. -/
theorem inserts_distinct_prices_any_order (s : ConcurrentHashMap K) (key : K)
    (rs rs' : List Order) (habs : s.map_ key = none) (hd : distinctPrices rs)
    (hperm : rs'.Perm rs) :
    ∃ l : List Order,
      ((run s (rs'.map (fun r => Op.insert key r))).map_ key).getD [] = l ∧
      (rs ≠ [] → (run s (rs'.map (fun r => Op.insert key r))).map_ key = some l) ∧
      l.length = rs.length ∧ l.Perm rs ∧ distinctPrices l := by
  have hd' : distinctPrices rs' := (hperm.map Order.price).nodup_iff.mpr hd
  obtain ⟨h1, h2⟩ := run_inserts_fresh_key key rs' s habs hd'
  refine ⟨rs', h1, ?_, hperm.length_eq, hperm, hd'⟩
  intro hne
  apply h2
  intro hnil
  rw [hnil] at hperm
  exact hne (List.Perm.eq_nil hperm.symm)

/-- Three price levels inserted in another order than they are listed. -/
theorem inserts_distinct_prices_any_order_witness :
    (run (empty : ConcurrentHashMap String) [Op.insert "B" ⟨1, 5⟩]).map_ "A" = none ∧
      distinctPrices [⟨1, 100⟩, ⟨2, 200⟩, ⟨3, 300⟩] ∧
      List.Perm [(⟨3, 300⟩ : Order), ⟨1, 100⟩, ⟨2, 200⟩] [⟨1, 100⟩, ⟨2, 200⟩, ⟨3, 300⟩] ∧
      (run (run (empty : ConcurrentHashMap String) [Op.insert "B" ⟨1, 5⟩])
        ([(⟨3, 300⟩ : Order), ⟨1, 100⟩, ⟨2, 200⟩].map (fun r => Op.insert "A" r))).map_ "A"
        = some [⟨3, 300⟩, ⟨1, 100⟩, ⟨2, 200⟩] ∧
      ∃ l : List Order,
        ((run (run (empty : ConcurrentHashMap String) [Op.insert "B" ⟨1, 5⟩])
          ([(⟨3, 300⟩ : Order), ⟨1, 100⟩, ⟨2, 200⟩].map (fun r => Op.insert "A" r))).map_
            "A").getD [] = l ∧
        (([⟨1, 100⟩, ⟨2, 200⟩, ⟨3, 300⟩] : List Order) ≠ [] →
          (run (run (empty : ConcurrentHashMap String) [Op.insert "B" ⟨1, 5⟩])
            ([(⟨3, 300⟩ : Order), ⟨1, 100⟩, ⟨2, 200⟩].map (fun r => Op.insert "A" r))).map_
              "A" = some l) ∧
        l.length = ([⟨1, 100⟩, ⟨2, 200⟩, ⟨3, 300⟩] : List Order).length ∧
        l.Perm [⟨1, 100⟩, ⟨2, 200⟩, ⟨3, 300⟩] ∧ distinctPrices l :=
  ⟨by decide, by decide, by decide, by decide,
    inserts_distinct_prices_any_order
      (run (empty : ConcurrentHashMap String) [Op.insert "B" ⟨1, 5⟩]) "A"
      [⟨1, 100⟩, ⟨2, 200⟩, ⟨3, 300⟩] [⟨3, 300⟩, ⟨1, 100⟩, ⟨2, 200⟩]
      (by decide) (by decide) (by decide)⟩

/-! ## The built-in test -/

/-- Claim C15, evaluated on the code: run on a fresh map, `test()` leaves
`{lotSize 18, price 155}` as the first record of "NESTLEIND", so its first
two assertions (lotSize 20, price 150) are false; the assertions on
"RELIANCE" and on the absence of "HDFCBANK" are true. -/
theorem test_first_two_assertions_fail :
    (test empty).2 = [false, false, true, true, true] ∧
      firstRecord (test empty).1 "NESTLEIND" = some ⟨18, 155⟩ ∧
      firstRecord (test empty).1 "RELIANCE" = some ⟨25, 2500⟩ ∧
      (test empty).1.map_ "HDFCBANK" = none := by
  decide

/-! ## Locking discipline of `remove` -/

/-- A method that takes the key's mutex before it erases it meets the
requirement. -/
theorem locksKeyBeforeErase_of_locked (key : K) :
    locksKeyBeforeErase key false
      [LockEvent.lock_map_mutex, LockEvent.lock_key_mutex key, LockEvent.erase_entry key,
        LockEvent.erase_mutex key, LockEvent.unlock_map_mutex] = true := by
  simp [locksKeyBeforeErase]

/-- Claim C16, evaluated on the code: `remove(key)` erases the mutex of `key`
and never takes a lock on it, before the erase or at all, so it does not meet
the requirement to hold the per-key lock when it deletes the lock object;
`insert`, `update` and both price queries on the same key do take that lock. -/
theorem remove_erases_mutex_without_locking_it (s : ConcurrentHashMap K) (key : K) :
    LockEvent.erase_mutex key ∈ remove_events key ∧
      LockEvent.lock_key_mutex key ∉ remove_events key ∧
      locksKeyBeforeErase key false (remove_events key) = false ∧
      LockEvent.lock_key_mutex key ∈ insert_events s key ∧
      LockEvent.lock_key_mutex key ∈ update_events s key ∧
      LockEvent.lock_key_mutex key ∈ get_lowest_price_events s key ∧
      LockEvent.lock_key_mutex key ∈ get_highest_price_events s key := by
  refine ⟨?_, ?_, ?_, ?_, ?_, ?_, ?_⟩
  · simp [remove_events]
  · simp [remove_events]
  · simp [remove_events, locksKeyBeforeErase]
  · simp [insert_events]
  · simp [update_events]
  · simp [get_lowest_price_events]
  · simp [get_highest_price_events]

end OperationLemmas

end ConcurrentMap
